import Mathlib

/-!
Verification of the react-native-onyx core against its specification.

The development shallowly embeds the relevant source modules:
* `KeyAlgebra`   — `lib/OnyxKeyUtils` (`OnyxSchema.ts`): `isCollectionKey`,
  `isCollectionMemberKey`, `getCollectionKey`, `splitCollectionMemberKey`.
* `OnyxCacheM`   — the `OnyxCache` class (storage map, nullish keys, recent
  keys, pending tasks, LRU eviction).
* `KBCache`      — the KeyBased prototype `Cache` (LRU + collection aggregate).
* `ConnMgr`      — the KeyBased prototype `ConnectionManager`.
* `ProxyConn`    — the ProxyBased prototype `connect` listener machine.
* `MergeImmer`   — `lib/OnyxMergeImmer.ts` (`fastMergeImmer`, patches).

JavaScript strings are modelled as `List Char`; JS `Set` iteration order is
modelled by keeping lists in insertion order (`Set.delete` removes, `Set.add`
appends when absent); JS `Map`s are association lists in insertion order.
-/

namespace KeyAlgebra

/-- A key is a JS string, modelled as a list of characters. -/
abbrev OKey := List Char

/-- The reserved collection-key delimiter. -/
def delim : Char := '_'

/-- Positions `i` of `'_'` inside `k` with `i > 0`, in descending order.
These are exactly the indices visited by the backward
`lastIndexOf('_')` loop of `getCollectionKey` (the loop condition
`lastUnderscoreIndex > 0` skips position 0). -/
def underscoreIdxs (k : OKey) : List Nat :=
  ((List.range k.length).filter (fun i => 0 < i && k.get? i == some delim)).reverse

/-- The candidate collection keys scanned by `getCollectionKey`:
`key.slice(0, i + 1)` for each visited underscore position `i`,
longest first. -/
def candidates (k : OKey) : List OKey :=
  (underscoreIdxs k).map (fun i => k.take (i + 1))

/-- `isCollectionKey(key)`: membership in the registered collection key set
(`onyxCollectionKeySet.has(key)`); the set is passed explicitly as `reg`. -/
def isCollectionKey (reg : List OKey) (key : OKey) : Bool :=
  decide (key ∈ reg)

/-- `getCollectionKey(key)`: scan backward from the rightmost underscore and
return the first (hence longest) candidate registered as a collection key;
the source throws when the loop exhausts, modelled by `none`. -/
def getCollectionKey (reg : List OKey) (key : OKey) : Option OKey :=
  (candidates key).find? (fun c => isCollectionKey reg c)

/-- `isCollectionMemberKey(collectionKey, key, collectionKeyLength)`:
`key.startsWith(collectionKey) && key.length > collectionKeyLength`
(the source always passes `collectionKey.length` as the third argument). -/
def isCollectionMemberKey (collectionKey key : OKey) : Bool :=
  collectionKey.isPrefixOf key && key.length > collectionKey.length

/-- `splitCollectionMemberKey(key, collectionKey?)`.  A provided hint that is
not a valid member prefix throws (`none` here); an absent hint — or the empty
string, which is falsy in JS — falls back to `getCollectionKey`.  On success
the result is `(collectionKey, key.slice(collectionKey.length))`. -/
def splitCollectionMemberKey (reg : List OKey) (key : OKey) (hint : Option OKey) :
    Option (OKey × OKey) :=
  match hint with
  | some h =>
    if h ≠ [] then
      if isCollectionMemberKey h key then some (h, key.drop h.length) else none
    else
      (getCollectionKey reg key).map (fun c => (c, key.drop c.length))
  | none => (getCollectionKey reg key).map (fun c => (c, key.drop c.length))

/-- Well-formed registered collection key: nonempty name followed by the
delimiter, i.e. length at least 2 and last character `'_'` (§3 of the spec:
a collection key is a key ending in the reserved delimiter). -/
def WfReg (c : OKey) : Prop := 2 ≤ c.length ∧ c.getLast? = some delim

theorem candidates_sorted (k : OKey) :
    (candidates k).Pairwise (fun a b => b.length < a.length) := by
  unfold candidates underscoreIdxs
  rw [List.pairwise_map]
  have hr : ((List.range k.length).filter
      (fun i => 0 < i && k.get? i == some delim)).Pairwise (· < ·) :=
    (List.pairwise_lt_range k.length).filter _
  rw [List.pairwise_reverse]
  refine hr.imp_of_mem ?_
  intro a b ha hb hab
  have haR : a ∈ List.range k.length := List.mem_of_mem_filter ha
  have hbR : b ∈ List.range k.length := List.mem_of_mem_filter hb
  have ha' : a < k.length := List.mem_range.mp haR
  have hb' : b < k.length := List.mem_range.mp hbR
  have h1 : (k.take (a + 1)).length = a + 1 := by
    simp [List.length_take]; omega
  have h2 : (k.take (b + 1)).length = b + 1 := by
    simp [List.length_take]; omega
  simp only [h1, h2]
  omega

theorem mem_candidates_of_wf_prefix {k c : OKey}
    (hwf : WfReg c) (hpre : c <+: k) : c ∈ candidates k := by
  obtain ⟨hlen, hlast⟩ := hwf
  have hcne : c ≠ [] := by
    intro h; rw [h] at hlen; simp at hlen
  -- the index of c's final delimiter inside k
  obtain ⟨t, ht⟩ := hpre
  have hklen : c.length ≤ k.length := by
    rw [← ht]; simp
  have hget : k.get? (c.length - 1) = some delim := by
    rw [← ht]
    rw [List.get?_append (by omega)]
    rw [← List.getLast?_eq_get?]
    exact hlast
  have hidx : c.length - 1 ∈ underscoreIdxs k := by
    unfold underscoreIdxs
    rw [List.mem_reverse, List.mem_filter]
    constructor
    · exact List.mem_range.mpr (by omega)
    · simp only [Bool.and_eq_true, decide_eq_true_eq, beq_iff_eq]
      exact ⟨by omega, hget⟩
  have htake : k.take (c.length - 1 + 1) = c := by
    have : c.length - 1 + 1 = c.length := by omega
    rw [this, ← ht, List.take_left]
  unfold candidates
  rw [List.mem_map]
  exact ⟨c.length - 1, hidx, htake⟩

theorem candidates_isPre {k c : OKey} (h : c ∈ candidates k) : c <+: k := by
  unfold candidates at h
  rw [List.mem_map] at h
  obtain ⟨i, _, rfl⟩ := h
  exact ⟨k.drop (i + 1), List.take_append_drop _ _⟩

/-- `find?` over a list strictly sorted by a measure returns a maximal
satisfying element. -/
theorem find?_max_measure {α : Type} (f : α → Nat) (p : α → Bool) :
    ∀ (l : List α), l.Pairwise (fun a b => f b < f a) →
      ∀ {c}, l.find? p = some c → ∀ c' ∈ l, p c' = true → f c' ≤ f c := by
  intro l
  induction l with
  | nil => intro _ c h; simp [List.find?] at h
  | cons a t ih =>
    intro hs c hfind c' hmem hp
    rw [List.pairwise_cons] at hs
    by_cases hpa : p a = true
    · rw [List.find?_cons_of_pos _ hpa] at hfind
      injection hfind with hca
      subst hca
      rcases List.mem_cons.mp hmem with h | h
      · subst h; exact le_refl _
      · exact le_of_lt (hs.1 c' h)
    · rw [List.find?_cons_of_neg _ hpa] at hfind
      rcases List.mem_cons.mp hmem with h | h
      · subst h; exact absurd hp hpa
      · exact ih hs.2 hfind c' h hp

/-- C6: with every registered collection key well formed (a nonempty name
followed by the delimiter), `getCollectionKey` returns the longest registered
collection key that is a (delimiter-terminated) prefix of the input, and it
fails exactly when no registered collection key is a prefix of the input. -/
theorem C6_getCollectionKey_longest_registered_match
    (reg : List OKey) (k : OKey) (hwf : ∀ c ∈ reg, WfReg c) :
    (∀ c, getCollectionKey reg k = some c →
        c ∈ reg ∧ c <+: k ∧ ∀ c' ∈ reg, c' <+: k → c'.length ≤ c.length) ∧
      (getCollectionKey reg k = none ↔ ∀ c ∈ reg, ¬ c <+: k) := by
  constructor
  · intro c hc
    have hmemc : c ∈ candidates k := List.mem_of_find?_eq_some hc
    have hpc : isCollectionKey reg c = true := List.find?_some hc
    have hcreg : c ∈ reg := by
      simpa [isCollectionKey, decide_eq_true_eq] using hpc
    refine ⟨hcreg, candidates_isPre hmemc, ?_⟩
    intro c' hc' hpre'
    have hmem' : c' ∈ candidates k :=
      mem_candidates_of_wf_prefix (hwf c' hc') hpre'
    have hp' : isCollectionKey reg c' = true := by
      simp [isCollectionKey, decide_eq_true_eq, hc']
    exact find?_max_measure List.length (isCollectionKey reg) (candidates k)
      (candidates_sorted k) hc c' hmem' hp'
  · constructor
    · intro hnone c hcreg hpre
      have hmem : c ∈ candidates k :=
        mem_candidates_of_wf_prefix (hwf c hcreg) hpre
      have := List.find?_eq_none.mp hnone c hmem
      simp [isCollectionKey, decide_eq_true_eq, hcreg] at this
    · intro hno
      cases hfind : getCollectionKey reg k with
      | none => rfl
      | some c =>
        have hmemc : c ∈ candidates k := List.mem_of_find?_eq_some hfind
        have hpc : isCollectionKey reg c = true := List.find?_some hfind
        have hcreg : c ∈ reg := by
          simpa [isCollectionKey, decide_eq_true_eq] using hpc
        exact absurd (candidates_isPre hmemc) (hno c hcreg)

/-- Witness for C6 at a concrete schema: `reg = {"report_", "report_meta_"}`,
`k = "report_meta_1"`; the longest registered prefix is `"report_meta_"`. -/
theorem C6_witness :
    (∀ c ∈ ["report_".toList, "report_meta_".toList], WfReg c) ∧
      getCollectionKey ["report_".toList, "report_meta_".toList]
        "report_meta_1".toList = some "report_meta_".toList ∧
      "report_meta_".toList ∈ ["report_".toList, "report_meta_".toList] ∧
      "report_meta_".toList <+: "report_meta_1".toList := by
  have hwf : ∀ c ∈ ["report_".toList, "report_meta_".toList], WfReg c := by
    intro c hc
    rcases List.mem_cons.mp hc with h | h
    · subst h; exact ⟨by decide, by decide⟩
    · rcases List.mem_cons.mp h with h' | h'
      · subst h'; exact ⟨by decide, by decide⟩
      · simp at h'
  have hres : getCollectionKey ["report_".toList, "report_meta_".toList]
      "report_meta_1".toList = some "report_meta_".toList := by decide
  have hspec := (C6_getCollectionKey_longest_registered_match
    ["report_".toList, "report_meta_".toList] "report_meta_1".toList hwf).1
    "report_meta_".toList hres
  exact ⟨hwf, hres, hspec.1, hspec.2.1⟩

end KeyAlgebra

namespace KeyAlgebra

theorem isPrefixOf_eq_true_iff {α : Type} [DecidableEq α] :
    ∀ (l₁ l₂ : List α), l₁.isPrefixOf l₂ = true ↔ l₁ <+: l₂ := by
  intro l₁
  induction l₁ with
  | nil => intro l₂; simp [List.isPrefixOf]
  | cons a as ih =>
    intro l₂
    cases l₂ with
    | nil => simp [List.isPrefixOf]
    | cons b bs =>
      simp [List.isPrefixOf, List.cons_prefix_cons, ih, And.comm]

theorem getCollectionKey_some_basic {reg : List OKey} {k c : OKey}
    (hc : getCollectionKey reg k = some c) : c ∈ reg ∧ c <+: k := by
  have hmemc : c ∈ candidates k := List.mem_of_find?_eq_some hc
  have hpc : isCollectionKey reg c = true := List.find?_some hc
  exact ⟨by simpa [isCollectionKey, decide_eq_true_eq] using hpc,
    candidates_isPre hmemc⟩

end KeyAlgebra

namespace KeyAlgebra

/-- C7 counterexample: with `reg = {"report_"}`, `key = "report_1"` and the
invalid hint `"x_"`, the claim says `splitCollectionMemberKey` falls back to
`resolveCollectionKey` (which would succeed with `("report_", "1")`), but the
source throws instead: the call yields no result even though the fallback
result exists. -/
theorem C7_counterexample :
    splitCollectionMemberKey ["report_".toList] "report_1".toList
        (some "x_".toList) = none ∧
      (getCollectionKey ["report_".toList] "report_1".toList).map
        (fun c => (c, "report_1".toList.drop c.length)) =
        some ("report_".toList, "1".toList) := by
  constructor
  · decide
  · decide

/-- C7 (amended): `splitCollectionMemberKey` uses a provided (nonempty) hint
as the collection part exactly when the hint is a valid strict prefix of the
member key; when a nonempty hint is provided but invalid it throws — it does
NOT fall back to `getCollectionKey`; the `getCollectionKey` fallback is used
only when no hint (or the empty, falsy hint) is provided. -/
theorem C7_splitCollectionMemberKey_hint_behavior
    (reg : List OKey) (k h : OKey) (hne : h ≠ []) :
    (isCollectionMemberKey h k = true →
        splitCollectionMemberKey reg k (some h) = some (h, k.drop h.length)) ∧
      (isCollectionMemberKey h k = false →
        splitCollectionMemberKey reg k (some h) = none) ∧
      splitCollectionMemberKey reg k none =
        (getCollectionKey reg k).map (fun c => (c, k.drop c.length)) ∧
      splitCollectionMemberKey reg k (some []) =
        (getCollectionKey reg k).map (fun c => (c, k.drop c.length)) := by
  refine ⟨?_, ?_, rfl, rfl⟩
  · intro hv
    simp [splitCollectionMemberKey, hne, hv]
  · intro hv
    simp [splitCollectionMemberKey, hne, hv]

/-- Witness for C7 at concrete inputs: hint `"report_"` on key `"report_1"`. -/
theorem C7_witness :
    "report_".toList ≠ ([] : OKey) ∧
      isCollectionMemberKey "report_".toList "report_1".toList = true ∧
      splitCollectionMemberKey [] "report_1".toList (some "report_".toList) =
        some ("report_".toList, "1".toList) := by
  refine ⟨by decide, by decide, ?_⟩
  have h := (C7_splitCollectionMemberKey_hint_behavior []
    "report_1".toList "report_".toList (by decide)).1 (by decide)
  simpa using h

/-- C10 counterexample: with an empty registry and the hint `"ab"` on key
`"ab_1"`, the split succeeds with collection part `"ab"`, which is not a
registered collection key — refuting the claim that a successful split always
returns a registered collection key. -/
theorem C10_counterexample :
    splitCollectionMemberKey [] "ab_1".toList (some "ab".toList) =
        some ("ab".toList, "_1".toList) ∧
      "ab".toList ∉ ([] : List OKey) := by
  exact ⟨by decide, by decide⟩

/-- C10 (amended): whenever `splitCollectionMemberKey` succeeds with
`(c, s)`, `c` is a prefix of the key and `c ++ s` reassembles the key
exactly; `c` is additionally a registered collection key whenever no
(nonempty) hint was supplied — a nonempty hint is trusted without a registry
lookup. -/
theorem C10_split_round_trip
    (reg : List OKey) (k : OKey) (hint : Option OKey) (c s : OKey)
    (hres : splitCollectionMemberKey reg k hint = some (c, s)) :
    c <+: k ∧ c ++ s = k ∧
      ((hint = none ∨ hint = some []) → c ∈ reg) := by
  have hmain : c <+: k ∧ s = k.drop c.length ∧
      ((hint = none ∨ hint = some []) → c ∈ reg) := by
    match hint with
    | none =>
      simp only [splitCollectionMemberKey, Option.map_eq_some'] at hres
      obtain ⟨c', hc', heq⟩ := hres
      obtain ⟨h1, h2⟩ := Prod.mk.injEq .. ▸ heq
      subst h1; subst h2
      have hb := getCollectionKey_some_basic hc'
      exact ⟨hb.2, rfl, fun _ => hb.1⟩
    | some h =>
      by_cases hne : h = []
      · subst hne
        simp only [splitCollectionMemberKey, ne_eq, not_true_eq_false,
          if_false, Option.map_eq_some'] at hres
        obtain ⟨c', hc', heq⟩ := hres
        obtain ⟨h1, h2⟩ := Prod.mk.injEq .. ▸ heq
        subst h1; subst h2
        have hb := getCollectionKey_some_basic hc'
        exact ⟨hb.2, rfl, fun _ => hb.1⟩
      · simp only [splitCollectionMemberKey, ne_eq, hne, not_false_eq_true,
          if_true] at hres
        by_cases hv : isCollectionMemberKey h k
        · rw [if_pos hv] at hres
          have hpair : (h, k.drop h.length) = (c, s) := Option.some.inj hres
          have h1 : h = c := congrArg Prod.fst hpair
          have h2 : k.drop h.length = s := congrArg Prod.snd hpair
          subst h1
          subst h2
          have hpre : h <+: k := by
            have := (Bool.and_eq_true _ _).mp hv
            exact (isPrefixOf_eq_true_iff h k).mp this.1
          refine ⟨hpre, rfl, ?_⟩
          intro hcontra
          rcases hcontra with h' | h'
          · simp at h'
          · simp at h'
            exact absurd h' hne
        · rw [if_neg hv] at hres
          exact absurd hres (by simp)
  obtain ⟨hpre, hs, hreg⟩ := hmain
  refine ⟨hpre, ?_, hreg⟩
  obtain ⟨t, ht⟩ := hpre
  subst hs
  rw [← ht, List.drop_left]

/-- Witness for C10 at a concrete input without a hint. -/
theorem C10_witness :
    splitCollectionMemberKey ["report_".toList] "report_1".toList none =
        some ("report_".toList, "1".toList) ∧
      "report_".toList <+: "report_1".toList ∧
      "report_".toList ++ "1".toList = "report_1".toList ∧
      "report_".toList ∈ ["report_".toList] := by
  have hres : splitCollectionMemberKey ["report_".toList] "report_1".toList
      none = some ("report_".toList, "1".toList) := by decide
  have h := C10_split_round_trip ["report_".toList] "report_1".toList none
    "report_".toList "1".toList hres
  exact ⟨hres, h.1, h.2.1, h.2.2 (Or.inl rfl)⟩

end KeyAlgebra

namespace OnyxCacheM

open KeyAlgebra (OKey)

/-- JS `Set.add`: append when absent (insertion order preserved). -/
def setAdd (l : List OKey) (k : OKey) : List OKey :=
  if k ∈ l then l else l ++ [k]

/-- JS `Set.delete`: remove the element (sets hold no duplicates). -/
def setDel (l : List OKey) (k : OKey) : List OKey :=
  l.filter (fun x => x ≠ k)

/-- JS object property delete on the storage map. -/
def mapDel (m : List (OKey × Nat)) (k : OKey) : List (OKey × Nat) :=
  m.filter (fun p => p.1 ≠ k)

/-- JS object property assignment: replace in place, else append. -/
def mapSet (m : List (OKey × Nat)) (k : OKey) (v : Nat) : List (OKey × Nat) :=
  if (m.lookup k).isSome then
    m.map (fun p => if p.1 = k then (k, v) else p)
  else m ++ [(k, v)]

/-- State of the `OnyxCache` class.  Values stored in `storageMap` are
opaque non-nullish data, modelled as `Nat`; `null`/`undefined` are the
`Option.none` argument of `set` and are never stored (the source deletes the
property instead).  `pendingPromises` is modelled by the list of task names
whose promise has not yet settled (the `finally` handler deletes the name on
settlement).  `merge` is not embedded here: it delegates to `utils.fastMerge`,
which lives outside the sources at hand; the nullish-tombstone bookkeeping it
performs is `addNullishStorageKey`, which is embedded. -/
structure CacheState where
  storageKeys : List OKey
  nullishStorageKeys : List OKey
  recentKeys : List OKey
  storageMap : List (OKey × Nat)
  pendingTasks : List String
  maxRecentKeysSize : Nat
deriving Repr, DecidableEq

/-- `addKey`. -/
def addKey (st : CacheState) (k : OKey) : CacheState :=
  { st with storageKeys := setAdd st.storageKeys k }

/-- `addNullishStorageKey`. -/
def addNullishStorageKey (st : CacheState) (k : OKey) : CacheState :=
  { st with nullishStorageKeys := setAdd st.nullishStorageKeys k }

/-- `hasNullishStorageKey`. -/
def hasNullishStorageKey (st : CacheState) (k : OKey) : Bool :=
  decide (k ∈ st.nullishStorageKeys)

/-- `hasCacheForKey`: `storageMap[key] !== undefined || hasNullishStorageKey`. -/
def hasCacheForKey (st : CacheState) (k : OKey) : Bool :=
  (st.storageMap.lookup k).isSome || hasNullishStorageKey st k

/-- `addToAccessedKeys`: `recentKeys.delete(key); recentKeys.add(key)`. -/
def addToAccessedKeys (st : CacheState) (k : OKey) : CacheState :=
  { st with recentKeys := setDel st.recentKeys k ++ [k] }

/-- `set(key, value)`: adds the key to the storage key list, touches recency,
removes the key from the nullish list, then stores the value — or, for a
nullish value, deletes the entry instead (the JS return value is omitted). -/
def cacheSet (st : CacheState) (k : OKey) (v : Option Nat) : CacheState :=
  let st1 : CacheState := addToAccessedKeys (addKey st k) k
  let st2 : CacheState :=
    { st1 with nullishStorageKeys := setDel st1.nullishStorageKeys k }
  match v with
  | none => { st2 with storageMap := mapDel st2.storageMap k }
  | some x => { st2 with storageMap := mapSet st2.storageMap k x }

/-- `get(key, shouldReindexCache)`: returns the stored value and the state
after the optional recency touch. -/
def cacheGet (st : CacheState) (k : OKey) (shouldReindexCache : Bool := true) :
    Option Nat × CacheState :=
  let st' := if shouldReindexCache then addToAccessedKeys st k else st
  (st'.storageMap.lookup k, st')

/-- `hasPendingTask(taskName)`. -/
def hasPendingTask (st : CacheState) (taskName : String) : Bool :=
  decide (taskName ∈ st.pendingTasks)

/-- `captureTask(taskName, promise)`: records the task name until the promise
settles (the wrapped promise itself is external to the model). -/
def captureTask (st : CacheState) (taskName : String) : CacheState :=
  { st with pendingTasks :=
      if taskName ∈ st.pendingTasks then st.pendingTasks
      else st.pendingTasks ++ [taskName] }

/-- `removeLeastRecentlyUsedKeys`: computes how many keys exceed the limit,
takes that many from the front (least recent) of `recentKeys`, and deletes
each from `storageMap` and `recentKeys`.  `pendingPromises` is not consulted. -/
def removeLeastRecentlyUsedKeys (st : CacheState) : CacheState :=
  if st.recentKeys.length - st.maxRecentKeysSize = 0 then st
  else
    { st with
      storageMap := st.storageMap.filter (fun p =>
        decide (p.1 ∉ st.recentKeys.take
          (st.recentKeys.length - st.maxRecentKeysSize)))
      recentKeys := st.recentKeys.filter (fun x =>
        decide (x ∉ st.recentKeys.take
          (st.recentKeys.length - st.maxRecentKeysSize))) }

/-- The freshly constructed cache. -/
def emptyCache : CacheState := ⟨[], [], [], [], [], 0⟩

theorem lookup_mapDel_self (m : List (OKey × Nat)) (k : OKey) :
    (mapDel m k).lookup k = none := by
  induction m with
  | nil => rfl
  | cons p t ih =>
    by_cases h : p.1 = k
    · simpa [mapDel, h] using ih
    · simpa [mapDel, h, List.lookup, beq_false_of_ne (Ne.symm h)] using ih

theorem mem_setDel_self (l : List OKey) (k : OKey) : k ∉ setDel l k := by
  intro h
  have := List.of_mem_filter h
  simp at this

/-- C1 counterexample: `set("session", null)` does not leave a tombstone.
From the fresh cache — and even from a cache already holding a nullish marker
for the key — `set(key, null)` leaves `hasCacheForKey` and
`hasNullishStorageKey` false, while the claim asserts both become true. -/
theorem C1_counterexample :
    hasCacheForKey (cacheSet emptyCache "session".toList none)
        "session".toList = false ∧
      hasNullishStorageKey (cacheSet emptyCache "session".toList none)
        "session".toList = false ∧
      hasCacheForKey
        (cacheSet (addNullishStorageKey emptyCache "session".toList)
          "session".toList none) "session".toList = false := by
  refine ⟨by decide, by decide, by decide⟩

/-- C1 (amended): `set(key, null)` erases rather than tombstones: afterwards
the key has no stored value, no nullish marker, `hasCacheForKey` is false and
`hasNullishStorageKey` is false.  The KnownNullish tombstone state is instead
established by `addNullishStorageKey` (used by `merge` for nullish values),
after which `hasCacheForKey` is true with no stored value — still distinct
from a never-seen key, for which `hasCacheForKey` is false. -/
theorem C1_set_null_erases
    (st : CacheState) (k : OKey) :
    ((cacheSet st k none).storageMap.lookup k = none ∧
      hasCacheForKey (cacheSet st k none) k = false ∧
      hasNullishStorageKey (cacheSet st k none) k = false) ∧
    (hasNullishStorageKey (addNullishStorageKey st k) k = true ∧
      hasCacheForKey (addNullishStorageKey st k) k = true ∧
      (addNullishStorageKey st k).storageMap = st.storageMap) := by
  have hmap : (cacheSet st k none).storageMap.lookup k = none := by
    show (mapDel st.storageMap k).lookup k = none
    exact lookup_mapDel_self st.storageMap k
  have hnl : hasNullishStorageKey (cacheSet st k none) k = false := by
    simp only [cacheSet, addToAccessedKeys, addKey, hasNullishStorageKey]
    simp only [decide_eq_false_iff_not]
    exact mem_setDel_self _ k
  have hadd : k ∈ setAdd st.nullishStorageKeys k := by
    unfold setAdd
    by_cases h : k ∈ st.nullishStorageKeys
    · simpa [h] using h
    · simp [h]
  refine ⟨⟨hmap, ?_, hnl⟩, ?_, ?_, rfl⟩
  · simp [hasCacheForKey, hmap, hnl]
  · simpa [hasNullishStorageKey, addNullishStorageKey] using hadd
  · have : hasNullishStorageKey (addNullishStorageKey st k) k = true := by
      simpa [hasNullishStorageKey, addNullishStorageKey] using hadd
    simp [hasCacheForKey, this]

/-- Witness for C1 (amended) at the concrete key `"session"`. -/
theorem C1_witness :
    hasCacheForKey (cacheSet emptyCache "session".toList none)
        "session".toList = false ∧
      hasNullishStorageKey
        (addNullishStorageKey emptyCache "session".toList)
        "session".toList = true := by
  exact ⟨((C1_set_null_erases emptyCache "session".toList).1).2.1,
    ((C1_set_null_erases emptyCache "session".toList).2).1⟩

end OnyxCacheM

namespace OnyxCacheM

open KeyAlgebra (OKey)

theorem lookup_filter_out {β : Type}
    (m : List (OKey × β)) (ks : List OKey) (k : OKey) (hk : k ∈ ks) :
    List.lookup k (m.filter (fun p => decide (p.1 ∉ ks))) = none := by
  induction m with
  | nil => rfl
  | cons p t ih =>
    obtain ⟨a, b⟩ := p
    by_cases h : a ∈ ks
    · have hd : decide ((a, b).1 ∉ ks) = false := by simp [h]
      rw [List.filter_cons, hd]
      exact ih
    · have hd : decide ((a, b).1 ∉ ks) = true := by simp [h]
      rw [List.filter_cons, hd]
      have hne : (k == a) = false := by
        simp only [beq_eq_false_iff_ne, ne_eq]
        intro he; exact h (he ▸ hk)
      simp only [List.lookup, hne]
      exact ih

theorem lookup_filter_keep {β : Type}
    (m : List (OKey × β)) (ks : List OKey) (k : OKey) (hk : k ∉ ks) :
    List.lookup k (m.filter (fun p => decide (p.1 ∉ ks))) = List.lookup k m := by
  induction m with
  | nil => rfl
  | cons p t ih =>
    obtain ⟨a, b⟩ := p
    by_cases h : a ∈ ks
    · have hd : decide ((a, b).1 ∉ ks) = false := by simp [h]
      rw [List.filter_cons, hd]
      have hne : (k == a) = false := by
        simp only [beq_eq_false_iff_ne, ne_eq]
        intro he; exact hk (he ▸ h)
      simp only [List.lookup, hne]
      exact ih
    · have hd : decide ((a, b).1 ∉ ks) = true := by simp [h]
      rw [List.filter_cons, hd]
      cases he : (k == a) with
      | true => simp only [List.lookup, he]
      | false =>
        simp only [List.lookup, he]
        exact ih

theorem filter_not_mem_take_eq_drop
    (l : List OKey) (n : Nat) (hnd : l.Nodup) :
    l.filter (fun x => decide (x ∉ l.take n)) = l.drop n := by
  have hdisj : ∀ a ∈ l.drop n, a ∉ l.take n := by
    intro a ha hcontra
    have := List.disjoint_take_drop hnd (le_refl n)
    exact this hcontra ha
  have h1 : (l.take n).filter (fun x => decide (x ∉ l.take n)) = [] := by
    apply List.filter_eq_nil.mpr
    intro a ha
    simp [ha]
  have h2 : (l.drop n).filter (fun x => decide (x ∉ l.take n)) = l.drop n := by
    apply List.filter_eq_self.mpr
    intro a ha
    simpa using hdisj a ha
  have key : (l.take n ++ l.drop n).filter (fun x => decide (x ∉ l.take n)) =
      l.drop n := by
    rw [List.filter_append, h1, h2, List.nil_append]
  rwa [List.take_append_drop n l] at key

/-- C4 counterexample: a cache state whose key `"a"` has an unsettled captured
task `"get:a"` (registered via `captureTask`), yet LRU eviction removes the
key's cached value anyway: `removeLeastRecentlyUsedKeys` never consults
`pendingPromises`. -/
theorem C4_counterexample :
    (hasPendingTask
        (captureTask
          ⟨["a".toList, "b".toList], [], ["a".toList, "b".toList],
            [("a".toList, 1), ("b".toList, 2)], [], 1⟩ "get:a") "get:a" = true) ∧
      (List.lookup "a".toList
        (captureTask
          ⟨["a".toList, "b".toList], [], ["a".toList, "b".toList],
            [("a".toList, 1), ("b".toList, 2)], [], 1⟩ "get:a").storageMap =
        some 1) ∧
      (List.lookup "a".toList
        (removeLeastRecentlyUsedKeys
          (captureTask
            ⟨["a".toList, "b".toList], [], ["a".toList, "b".toList],
              [("a".toList, 1), ("b".toList, 2)], [], 1⟩ "get:a")).storageMap =
        none) := by
  refine ⟨by decide, by decide, by decide⟩

/-- C4 (amended): LRU eviction is entirely independent of captured tasks.
`removeLeastRecentlyUsedKeys` leaves `pendingPromises` untouched and removes
exactly the `recentKeys.length - maxRecentKeysSize` least-recently-used keys
from the storage map and the recency list, whether or not any of those keys
has an unsettled captured task. -/
theorem C4_eviction_ignores_pending_tasks
    (st : CacheState) (hnd : st.recentKeys.Nodup) :
    (removeLeastRecentlyUsedKeys st).pendingTasks = st.pendingTasks ∧
      (removeLeastRecentlyUsedKeys st).recentKeys =
        st.recentKeys.drop (st.recentKeys.length - st.maxRecentKeysSize) ∧
      (∀ k ∈ st.recentKeys.take (st.recentKeys.length - st.maxRecentKeysSize),
        List.lookup k (removeLeastRecentlyUsedKeys st).storageMap = none) ∧
      (∀ k, k ∉ st.recentKeys.take (st.recentKeys.length - st.maxRecentKeysSize) →
        List.lookup k (removeLeastRecentlyUsedKeys st).storageMap =
          List.lookup k st.storageMap) := by
  unfold removeLeastRecentlyUsedKeys
  by_cases hz : st.recentKeys.length - st.maxRecentKeysSize = 0
  · rw [if_pos hz, hz]
    refine ⟨rfl, by simp, ?_, ?_⟩
    · intro k hk
      simp at hk
    · intro k _
      rfl
  · rw [if_neg hz]
    refine ⟨rfl, ?_, ?_, ?_⟩
    · exact filter_not_mem_take_eq_drop st.recentKeys _ hnd
    · intro k hk
      exact lookup_filter_out st.storageMap _ k hk
    · intro k hk
      exact lookup_filter_keep st.storageMap _ k hk

/-- Witness for C4 (amended) at a concrete state with a pending task. -/
theorem C4_witness :
    (["a".toList, "b".toList] : List OKey).Nodup ∧
      (removeLeastRecentlyUsedKeys
        ⟨["a".toList, "b".toList], [], ["a".toList, "b".toList],
          [("a".toList, 1), ("b".toList, 2)], ["get:a"], 1⟩).pendingTasks =
        ["get:a"] := by
  have hnd : (["a".toList, "b".toList] : List OKey).Nodup := by decide
  refine ⟨hnd, ?_⟩
  exact (C4_eviction_ignores_pending_tasks
    ⟨["a".toList, "b".toList], [], ["a".toList, "b".toList],
      [("a".toList, 1), ("b".toList, 2)], ["get:a"], 1⟩ hnd).1

end OnyxCacheM

namespace KBCache

open KeyAlgebra (OKey)

/-- A value stored in the KeyBased prototype cache: JS `null` or opaque
non-null data identified by a tag (model values stand for JS object
references; distinct tags are distinct references).  A stored JS `undefined`
behaves exactly like `null` in every operation below and is collapsed
into `vnull`. -/
inductive KBVal where
  | vnull
  | vdata (n : Nat)
deriving Repr, DecidableEq

/-- JS `Map.set`: replace in place when the key exists (keeping its
insertion position), append otherwise. -/
def mapSet (m : List (OKey × KBVal)) (k : OKey) (v : KBVal) :
    List (OKey × KBVal) :=
  if (List.lookup k m).isSome then
    m.map (fun p => if p.1 = k then (k, v) else p)
  else m ++ [(k, v)]

/-- State of the KeyBased prototype `Cache` class.  `cache` is the `Map` in
insertion order, `accessOrder` the recency `Set` (least recent first),
`collectionCache` maps a collection key to the cached `{keys, value}` pair.
`maxSize = 0` models the JS `maxSize <= 0` no-eviction case. -/
structure KBState where
  cache : List (OKey × KBVal)
  maxSize : Nat
  accessOrder : List OKey
  collectionCache : List (OKey × (List OKey × List (OKey × KBVal)))
deriving Repr, DecidableEq

/-- `invalidateCollectionCache(memberKey)`: the regex `/^(.+_)/` greedily
captures everything up to the last underscore, requiring at least one
character before it; on a match the captured collection key is dropped from
the collection cache. -/
def invalidateCollectionCache (st : KBState) (memberKey : OKey) : KBState :=
  match (((List.range memberKey.length).filter
      (fun i => memberKey.get? i == some '_')).getLast?) with
  | some i =>
    if 1 ≤ i then
      { st with collectionCache :=
          st.collectionCache.filter (fun p => decide (p.1 ≠ memberKey.take (i + 1))) }
    else st
  | none => st

/-- One iteration of the eviction loop: delete the key from the `cache` map
and the access-order set, skipping a falsy (empty-string) key — the source
guards with `if (keyToEvict)`. -/
def evictOne (st : KBState) (k : OKey) : KBState :=
  if k = [] then st
  else
    { st with
      cache := st.cache.filter (fun p => decide (p.1 ≠ k))
      accessOrder := st.accessOrder.filter (fun x => decide (x ≠ k)) }

/-- `evictIfNeeded`: when over capacity, evict the first
`cache.size - maxSize` entries of the access order (captured up front). -/
def evictIfNeeded (st : KBState) : KBState :=
  if st.maxSize = 0 ∨ st.cache.length ≤ st.maxSize then st
  else (st.accessOrder.take (st.cache.length - st.maxSize)).foldl evictOne st

/-- `set(key, value)`: touch recency (delete + re-append), store in the map,
invalidate the key's collection aggregate, then evict if over capacity. -/
def kbSet (st : KBState) (k : OKey) (v : KBVal) : KBState :=
  evictIfNeeded (invalidateCollectionCache
    { st with
      accessOrder := st.accessOrder.filter (fun x => decide (x ≠ k)) ++ [k]
      cache := mapSet st.cache k v } k)

/-- `setMaxSize(size)`. -/
def setMaxSize (st : KBState) (size : Nat) : KBState :=
  evictIfNeeded { st with maxSize := size }

/-- `get(key)`: `undefined` on a miss, otherwise touch recency and return. -/
def kbGet (st : KBState) (k : OKey) : Option KBVal × KBState :=
  match List.lookup k st.cache with
  | none => (none, st)
  | some v =>
    (some v, { st with
      accessOrder := st.accessOrder.filter (fun x => decide (x ≠ k)) ++ [k] })

/-- Folding `set` over a batch of (distinct) inserts. -/
def insertAll (st : KBState) (ks : List (OKey × KBVal)) : KBState :=
  ks.foldl (fun s p => kbSet s p.1 p.2) st

/-- A fresh cache with capacity `n` (`new Cache()` + `setMaxSize(n)`). -/
def kbEmpty (n : Nat) : KBState := ⟨[], n, [], []⟩

theorem lookup_eq_none_of_not_mem_keys {β : Type}
    (m : List (OKey × β)) (k : OKey) (hk : k ∉ m.map Prod.fst) :
    List.lookup k m = none := by
  induction m with
  | nil => rfl
  | cons p t ih =>
    obtain ⟨a, b⟩ := p
    simp only [List.map_cons, List.mem_cons] at hk
    push_neg at hk
    have hne : (k == a) = false := by
      simp only [beq_eq_false_iff_ne, ne_eq]
      exact hk.1
    simp only [List.lookup, hne]
    exact ih hk.2

theorem filter_ne_eq_self_okey (l : List OKey) (k : OKey)
    (h : ∀ x ∈ l, x ≠ k) :
    l.filter (fun x => decide (x ≠ k)) = l := by
  apply List.filter_eq_self.mpr
  intro a ha
  simpa using h a ha

theorem filter_fst_ne_eq_self (l : List (OKey × KBVal)) (k : OKey)
    (h : ∀ x ∈ l.map Prod.fst, x ≠ k) :
    l.filter (fun p => decide (p.1 ≠ k)) = l := by
  apply List.filter_eq_self.mpr
  intro a ha
  have : a.1 ∈ l.map Prod.fst := List.mem_map_of_mem Prod.fst ha
  simpa using h a.1 this

end KBCache

namespace KBCache

open KeyAlgebra (OKey)

theorem invalidate_preserves (s : KBState) (k : OKey) :
    (invalidateCollectionCache s k).cache = s.cache ∧
      (invalidateCollectionCache s k).accessOrder = s.accessOrder ∧
      (invalidateCollectionCache s k).maxSize = s.maxSize := by
  unfold invalidateCollectionCache
  cases ((List.range k.length).filter (fun i => k.get? i == some '_')).getLast? with
  | none => exact ⟨rfl, rfl, rfl⟩
  | some i =>
    dsimp only
    by_cases hi : 1 ≤ i
    · rw [if_pos hi]
      exact ⟨rfl, rfl, rfl⟩
    · rw [if_neg hi]
      exact ⟨rfl, rfl, rfl⟩

/-- `evictIfNeeded` on a consistent state holding `c ++ [(k, v)]`: a no-op
under capacity; at capacity `c.length = N` it evicts exactly the head of `c`
(the least-recently-used key). -/
theorem evict_step (s : KBState) (c : List (OKey × KBVal)) (k : OKey)
    (v : KBVal) (N : Nat)
    (hmax : s.maxSize = N) (hN : 1 ≤ N)
    (hcache : s.cache = c ++ [(k, v)])
    (haccess : s.accessOrder = c.map Prod.fst ++ [k])
    (hlen : c.length ≤ N)
    (hnd : (c.map Prod.fst).Nodup)
    (hkfresh : k ∉ c.map Prod.fst)
    (hane : ∀ x ∈ c.map Prod.fst, x ≠ []) :
    (evictIfNeeded s).cache = (if c.length = N then c.tail else c) ++ [(k, v)] ∧
      (evictIfNeeded s).accessOrder =
        ((if c.length = N then c.tail else c) ++ [(k, v)]).map Prod.fst ∧
      (evictIfNeeded s).maxSize = N := by
  unfold evictIfNeeded
  rcases Nat.lt_or_ge c.length N with hlt | hge
  · have hcond : s.maxSize = 0 ∨ s.cache.length ≤ s.maxSize := by
      right
      rw [hcache, hmax]
      simp only [List.length_append, List.length_singleton]
      omega
    rw [if_pos hcond]
    have hne' : c.length ≠ N := by omega
    rw [if_neg hne']
    refine ⟨hcache, ?_, hmax⟩
    rw [haccess]
    simp
  · have heq : c.length = N := le_antisymm hlen hge
    obtain ⟨p, c', hc⟩ : ∃ p c', c = p :: c' := by
      cases hcs : c with
      | nil =>
        rw [hcs] at heq
        simp at heq
        omega
      | cons p c' => exact ⟨p, c', rfl⟩
    have hcond : ¬ (s.maxSize = 0 ∨ s.cache.length ≤ s.maxSize) := by
      push_neg
      rw [hcache, hmax]
      simp only [List.length_append, List.length_singleton]
      omega
    rw [if_neg hcond]
    have hnum : s.cache.length - s.maxSize = 1 := by
      rw [hcache, hmax]
      simp only [List.length_append, List.length_singleton]
      omega
    rw [hnum, haccess, hc]
    simp only [List.map_cons, List.cons_append, List.take_succ_cons,
      List.take_zero, List.foldl_cons, List.foldl_nil]
    have hmemp : p.1 ∈ c.map Prod.fst := by
      rw [hc]
      exact List.mem_map_of_mem Prod.fst (List.mem_cons_self p c')
    have hpne : p.1 ≠ [] := hane p.1 hmemp
    have hkp : k ≠ p.1 := by
      intro hcontra
      exact hkfresh (hcontra ▸ hmemp)
    have hp_notin_c' : ∀ x ∈ c'.map Prod.fst, x ≠ p.1 := by
      intro x hx hxp
      rw [hc] at hnd
      simp only [List.map_cons, List.nodup_cons] at hnd
      exact hnd.1 (hxp ▸ hx)
    unfold evictOne
    rw [if_neg hpne]
    have heq' : (p :: c').length = N := by
      rw [← hc]
      exact heq
    have hcachef : s.cache.filter (fun q => decide (q.1 ≠ p.1)) =
        c' ++ [(k, v)] := by
      rw [hcache, hc, List.cons_append, List.filter_cons, List.filter_append]
      have h0 : (decide ((p.1, p.2).1 ≠ p.1) : Bool) = false := by simp
      simp only [h0]
      rw [filter_fst_ne_eq_self c' p.1 hp_notin_c']
      simp [hkp]
    have haccessf : s.accessOrder.filter (fun x => decide (x ≠ p.1)) =
        c'.map Prod.fst ++ [k] := by
      rw [haccess, hc, List.map_cons, List.cons_append, List.filter_cons,
        List.filter_append]
      have h0 : (decide (p.1 ≠ p.1) : Bool) = false := by simp
      simp only [h0]
      rw [filter_ne_eq_self_okey (c'.map Prod.fst) p.1 hp_notin_c']
      simp [hkp]
    rw [if_pos heq']
    dsimp only
    simp only [List.tail_cons]
    refine ⟨hcachef, ?_, hmax⟩
    rw [haccessf]
    simp

/-- Inserting a fresh, nonempty key into a consistent cache at or under
capacity appends it; when the cache was exactly at capacity the single
least-recently-used entry (the head) is evicted. -/
theorem kbSet_fresh (st : KBState) (k : OKey) (v : KBVal) (N : Nat)
    (hmax : st.maxSize = N) (hN : 1 ≤ N)
    (hlen : st.cache.length ≤ N)
    (hacc : st.accessOrder = st.cache.map Prod.fst)
    (hnd : (st.cache.map Prod.fst).Nodup)
    (hkfresh : k ∉ st.cache.map Prod.fst)
    (hkne : k ≠ [])
    (hane : ∀ x ∈ st.cache.map Prod.fst, x ≠ []) :
    (kbSet st k v).cache =
        (if st.cache.length = N then st.cache.tail else st.cache) ++ [(k, v)] ∧
      (kbSet st k v).accessOrder =
        ((if st.cache.length = N then st.cache.tail else st.cache) ++
          [(k, v)]).map Prod.fst ∧
      (kbSet st k v).maxSize = N := by
  have hmapset : mapSet st.cache k v = st.cache ++ [(k, v)] := by
    unfold mapSet
    rw [lookup_eq_none_of_not_mem_keys st.cache k hkfresh]
    simp
  have hfilter : st.accessOrder.filter (fun x => decide (x ≠ k)) =
      st.cache.map Prod.fst := by
    rw [hacc]
    exact filter_ne_eq_self_okey _ k (fun x hx => fun hexk => hkfresh (hexk ▸ hx))
  unfold kbSet
  have hinv := invalidate_preserves
    { st with
      accessOrder := st.accessOrder.filter (fun x => decide (x ≠ k)) ++ [k]
      cache := mapSet st.cache k v } k
  exact evict_step _ st.cache k v N (hinv.2.2.trans hmax) hN
    (hinv.1.trans hmapset)
    (hinv.2.1.trans (by rw [hfilter]))
    hlen hnd hkfresh hane

end KBCache

namespace KBCache

open KeyAlgebra (OKey)

theorem insertAll_spec (N : Nat) (hN : 1 ≤ N) :
    ∀ (ks : List (OKey × KBVal)) (st : KBState),
      st.maxSize = N → st.cache.length ≤ N →
      st.accessOrder = st.cache.map Prod.fst →
      (st.cache.map Prod.fst ++ ks.map Prod.fst).Nodup →
      (∀ x ∈ st.cache.map Prod.fst, x ≠ []) →
      (∀ x ∈ ks.map Prod.fst, x ≠ []) →
      (insertAll st ks).cache =
          (st.cache ++ ks).drop (st.cache.length + ks.length - N) ∧
        (insertAll st ks).accessOrder =
          ((st.cache ++ ks).drop (st.cache.length + ks.length - N)).map
            Prod.fst := by
  intro ks
  induction ks with
  | nil =>
    intro st h1 h2 h3 _ _ _
    have hz : st.cache.length + ([] : List (OKey × KBVal)).length - N = 0 := by
      simp only [List.length_nil]
      omega
    rw [hz, List.append_nil, List.drop_zero]
    exact ⟨rfl, h3⟩
  | cons hd rest ih =>
    intro st h1 h2 h3 h4 h5 h6
    obtain ⟨k, v⟩ := hd
    simp only [List.map_cons] at h4
    have hA_nodup : (st.cache.map Prod.fst).Nodup := h4.of_append_left
    have hdisj := List.disjoint_of_nodup_append h4
    have hkfresh : k ∉ st.cache.map Prod.fst := by
      intro hc
      exact hdisj hc (List.mem_cons_self _ _)
    have hkne : k ≠ [] :=
      h6 k (List.mem_map_of_mem Prod.fst (List.mem_cons_self _ _))
    obtain ⟨hsc, hsa, hsm⟩ := kbSet_fresh st k v N h1 hN h2 h3 hA_nodup
      hkfresh hkne h5
    have hc1sub : (if st.cache.length = N then st.cache.tail else st.cache).Sublist
        st.cache := by
      by_cases hif : st.cache.length = N
      · rw [if_pos hif]
        exact List.tail_sublist st.cache
      · rw [if_neg hif]
    have hc1len : (if st.cache.length = N then st.cache.tail
        else st.cache).length + 1 ≤ N := by
      by_cases hif : st.cache.length = N
      · rw [if_pos hif, List.length_tail]
        omega
      · rw [if_neg hif]
        omega
    have hmapsub : ((if st.cache.length = N then st.cache.tail
        else st.cache).map Prod.fst).Sublist (st.cache.map Prod.fst) :=
      hc1sub.map Prod.fst
    have h1' : (kbSet st k v).maxSize = N := hsm
    have h2' : (kbSet st k v).cache.length ≤ N := by
      rw [hsc]
      simp only [List.length_append, List.length_singleton]
      omega
    have h3' : (kbSet st k v).accessOrder = (kbSet st k v).cache.map Prod.fst := by
      rw [hsa, hsc]
    have h4' : ((kbSet st k v).cache.map Prod.fst ++ rest.map Prod.fst).Nodup := by
      rw [hsc]
      simp only [List.map_append, List.map_cons, List.map_nil]
      rw [List.append_assoc, List.singleton_append]
      have hsub2 : ((if st.cache.length = N then st.cache.tail
          else st.cache).map Prod.fst ++ (k :: rest.map Prod.fst)).Sublist
          (st.cache.map Prod.fst ++ (k :: rest.map Prod.fst)) :=
        hmapsub.append (List.Sublist.refl _)
      exact h4.sublist hsub2
    have h5' : ∀ x ∈ (kbSet st k v).cache.map Prod.fst, x ≠ [] := by
      rw [hsc]
      intro x hx
      simp only [List.map_append, List.map_cons, List.map_nil,
        List.mem_append, List.mem_cons] at hx
      rcases hx with hx | hx
      · exact h5 x (hmapsub.mem hx)
      · rcases hx with hx | hx
        · rw [hx]; exact hkne
        · simp at hx
    have h6' : ∀ x ∈ rest.map Prod.fst, x ≠ [] := by
      intro x hx
      exact h6 x (by simp [hx])
    have hih := ih (kbSet st k v) h1' h2' h3' h4' h5' h6'
    have hfold : insertAll st ((k, v) :: rest) = insertAll (kbSet st k v) rest := by
      simp [insertAll]
    rw [hfold]
    obtain ⟨hihc, hiha⟩ := hih
    rw [hsc] at hihc hiha
    by_cases hif : st.cache.length = N
    · -- at capacity: the head was evicted
      obtain ⟨q, t, hqt⟩ : ∃ q t, st.cache = q :: t := by
        cases hcs : st.cache with
        | nil =>
          rw [hcs] at hif
          simp at hif
          omega
        | cons q t => exact ⟨q, t, rfl⟩
      rw [if_pos hif] at hihc hiha
      rw [hqt] at hihc hiha ⊢
      simp only [List.tail_cons] at hihc hiha
      have hidx1 : (t ++ [(k, v)]).length + rest.length - N = rest.length := by
        simp only [List.length_append, List.length_singleton]
        have : t.length = N - 1 := by
          have := hif
          rw [hqt] at this
          simp only [List.length_cons] at this
          omega
        omega
      have hidx2 : (q :: t).length + ((k, v) :: rest).length - N =
          rest.length + 1 := by
        simp only [List.length_cons]
        have : t.length + 1 = N := by
          have := hif
          rw [hqt] at this
          simpa using this
        omega
      rw [hidx1] at hihc hiha
      rw [hidx2]
      have hlist : (t ++ [(k, v)]) ++ rest = t ++ ((k, v) :: rest) := by
        rw [List.append_assoc, List.singleton_append]
      rw [hlist] at hihc hiha
      have hdropped : ((q :: t) ++ ((k, v) :: rest)).drop (rest.length + 1) =
          (t ++ ((k, v) :: rest)).drop rest.length := by
        rw [List.cons_append, List.drop_succ_cons]
      rw [hdropped]
      exact ⟨hihc, hiha⟩
    · rw [if_neg hif] at hihc hiha
      have hlist : (st.cache ++ [(k, v)]) ++ rest = st.cache ++ ((k, v) :: rest) := by
        rw [List.append_assoc, List.singleton_append]
      have hidx : (st.cache ++ [(k, v)]).length + rest.length - N =
          st.cache.length + ((k, v) :: rest).length - N := by
        simp only [List.length_append, List.length_singleton, List.length_cons,
          List.length_nil]
        omega
      rw [hlist, hidx] at hihc hiha
      exact ⟨hihc, hiha⟩

end KBCache

namespace KBCache

open KeyAlgebra (OKey)

/-- C5: starting from an empty cache with `maxSize = N ≥ 1`, inserting
`N + K` distinct (nonempty) keys with no interleaved reads leaves exactly the
`N` most recently inserted entries resident, in insertion order, and every
one of the `K` earliest-inserted keys has been evicted from the map. -/
theorem C5_lru_eviction (N K : Nat) (ks : List (OKey × KBVal))
    (hN : 1 ≤ N) (hK : 1 ≤ K) (hlen : ks.length = N + K)
    (hnd : (ks.map Prod.fst).Nodup)
    (hne : ∀ x ∈ ks.map Prod.fst, x ≠ []) :
    (insertAll (kbEmpty N) ks).cache = ks.drop K ∧
      (insertAll (kbEmpty N) ks).accessOrder = (ks.drop K).map Prod.fst ∧
      ∀ x ∈ (ks.take K).map Prod.fst,
        List.lookup x (insertAll (kbEmpty N) ks).cache = none := by
  have hspec := insertAll_spec N hN ks (kbEmpty N) rfl (by simp [kbEmpty])
    (by simp [kbEmpty]) (by simpa [kbEmpty] using hnd) (by simp [kbEmpty]) hne
  obtain ⟨hc, ha⟩ := hspec
  have hcache0 : (kbEmpty N).cache = [] := rfl
  simp only [hcache0, List.nil_append, List.length_nil, Nat.zero_add] at hc ha
  have hidx : ks.length - N = K := by omega
  rw [hidx] at hc ha
  refine ⟨hc, ha, ?_⟩
  intro x hx
  rw [hc]
  apply lookup_eq_none_of_not_mem_keys
  rw [List.map_drop]
  rw [List.map_take] at hx
  intro hcontra
  exact (List.disjoint_take_drop hnd (le_refl K)) hx hcontra

/-- Witness for C5: capacity 2, three distinct inserts; the earliest key
`"a"` is evicted and `"b"`, `"c"` remain in order. -/
theorem C5_witness :
    (1 : Nat) ≤ 2 ∧ (1 : Nat) ≤ 1 ∧
      ([("a".toList, KBVal.vdata 1), ("b".toList, KBVal.vdata 2),
        ("c".toList, KBVal.vdata 3)].length = 2 + 1) ∧
      (insertAll (kbEmpty 2)
          [("a".toList, KBVal.vdata 1), ("b".toList, KBVal.vdata 2),
            ("c".toList, KBVal.vdata 3)]).cache =
        [("b".toList, KBVal.vdata 2), ("c".toList, KBVal.vdata 3)] := by
  refine ⟨by decide, by decide, by decide, ?_⟩
  have h := (C5_lru_eviction 2 1
    [("a".toList, KBVal.vdata 1), ("b".toList, KBVal.vdata 2),
      ("c".toList, KBVal.vdata 3)]
    (by decide) (by decide) (by decide) (by decide) (by decide)).1
  simpa using h

end KBCache

namespace KBCache

open KeyAlgebra (OKey)

/-- The member filter of `getCollection`: `key.startsWith(collectionKey) &&
key !== collectionKey && value !== null && value !== undefined`. -/
def memberCond (ck : OKey) (p : OKey × KBVal) : Bool :=
  ck.isPrefixOf p.1 && !(p.1 == ck) && !(p.2 == KBVal.vnull)

/-- The `currentKeys` set built by `getCollection`, in cache-iteration
(insertion) order. -/
def kbCurrentKeys (st : KBState) (ck : OKey) : List OKey :=
  (st.cache.filter (memberCond ck)).map Prod.fst

/-- `Map.set` on the collection cache. -/
def ccSet (m : List (OKey × (List OKey × List (OKey × KBVal)))) (k : OKey)
    (v : List OKey × List (OKey × KBVal)) :
    List (OKey × (List OKey × List (OKey × KBVal))) :=
  if (List.lookup k m).isSome then
    m.map (fun p => if p.1 = k then (k, v) else p)
  else m ++ [(k, v)]

/-- The freshly built aggregate object: each current member key with its
(re-checked non-nullish) cached value, in `currentKeys` order. -/
def kbAggregate (st : KBState) (ck : OKey) : List (OKey × KBVal) :=
  (kbCurrentKeys st ck).filterMap (fun k =>
    match List.lookup k st.cache with
    | some v => if v = KBVal.vnull then none else some (k, v)
    | none => none)

/-- The rebuild path of `getCollection`: return and cache the fresh aggregate
when it has members (`hasMembers`), otherwise return `undefined` without
caching. -/
def kbRebuild (st : KBState) (ck : OKey) :
    Option (List (OKey × KBVal)) × KBState :=
  if kbAggregate st ck = [] then (none, st)
  else
    (some (kbAggregate st ck),
      { st with collectionCache := ccSet st.collectionCache ck (kbCurrentKeys st ck, kbAggregate st ck) })

/-- `getCollection(collectionKey)`: `undefined` for a key not ending in the
delimiter; otherwise, when a cached aggregate exists whose key set matches
(`keysChanged` false: equal sizes and containment) and whose per-member
entries are identical to the live cache (`valuesChanged` false, a JS `!==`
reference comparison), return the cached instance; otherwise rebuild. -/
def getCollection (st : KBState) (ck : OKey) :
    Option (List (OKey × KBVal)) × KBState :=
  if ck.getLast? ≠ some '_' then (none, st)
  else
    match List.lookup ck st.collectionCache with
    | some cached =>
      if (kbCurrentKeys st ck).length = cached.1.length ∧
          (∀ x ∈ kbCurrentKeys st ck, x ∈ cached.1) ∧
          (∀ x ∈ kbCurrentKeys st ck, List.lookup x st.cache =
            List.lookup x cached.2) then
        (some cached.2, st)
      else kbRebuild st ck
    | none => kbRebuild st ck

theorem mem_currentKeys {st : KBState} {ck k : OKey} :
    k ∈ kbCurrentKeys st ck ↔
      ∃ v, (k, v) ∈ st.cache ∧ memberCond ck (k, v) = true := by
  unfold kbCurrentKeys
  rw [List.mem_map]
  constructor
  · rintro ⟨p, hp, rfl⟩
    obtain ⟨hmem, hcond⟩ := List.mem_filter.mp hp
    exact ⟨p.2, hmem, hcond⟩
  · rintro ⟨v, hmem, hcond⟩
    exact ⟨(k, v), List.mem_filter.mpr ⟨hmem, hcond⟩, rfl⟩

theorem currentKeys_nodup {st : KBState} {ck : OKey}
    (hnd : (st.cache.map Prod.fst).Nodup) :
    (kbCurrentKeys st ck).Nodup := by
  unfold kbCurrentKeys
  exact hnd.sublist ((List.filter_sublist _).map Prod.fst)

theorem lookup_of_mem_nodup {β : Type} (m : List (OKey × β)) (k : OKey) (v : β)
    (hnd : (m.map Prod.fst).Nodup) (hm : (k, v) ∈ m) :
    List.lookup k m = some v := by
  induction m with
  | nil => simp at hm
  | cons p t ih =>
    obtain ⟨a, b⟩ := p
    simp only [List.map_cons, List.nodup_cons] at hnd
    rcases List.mem_cons.mp hm with h | h
    · obtain ⟨h1, h2⟩ := Prod.mk.injEq .. ▸ h
      have hka : (k == a) = true := by
        simp [h1.symm]
      simp only [List.lookup, hka]
      rw [h2.symm]
    · have hka : (k == a) = false := by
        simp only [beq_eq_false_iff_ne, ne_eq]
        intro he
        subst he
        exact hnd.1 (List.mem_map_of_mem Prod.fst h)
      simp only [List.lookup, hka]
      exact ih hnd.2 h

theorem filterMap_graph {β : Type} (l : List OKey)
    (f : OKey → Option (OKey × β)) (g : OKey → β)
    (hf : ∀ x ∈ l, f x = some (x, g x)) :
    l.filterMap f = l.map (fun x => (x, g x)) := by
  induction l with
  | nil => rfl
  | cons a t ih =>
    rw [List.filterMap_cons, hf a (List.mem_cons_self a t), List.map_cons]
    rw [ih (fun x hx => hf x (List.mem_cons_of_mem a hx))]

theorem lookup_map_graph {β : Type} (l : List OKey) (g : OKey → β) (k : OKey)
    (hnd : l.Nodup) (hk : k ∈ l) :
    List.lookup k (l.map (fun x => (x, g x))) = some (g k) := by
  induction l with
  | nil => simp at hk
  | cons a t ih =>
    simp only [List.nodup_cons] at hnd
    rcases List.mem_cons.mp hk with h | h
    · subst h
      simp [List.lookup]
    · have hka : (k == a) = false := by
        simp only [beq_eq_false_iff_ne, ne_eq]
        intro he
        subst he
        exact hnd.1 h
      simp only [List.map_cons, List.lookup, hka]
      exact ih hnd.2 h

end KBCache

namespace KBCache

open KeyAlgebra (OKey)

/-- C3 counterexample: a collection whose only member is tombstoned (value
`null`) has zero present members, and `getCollection` returns `undefined`
(`none`) — not the empty mapping the claim describes as "containing exactly
the [zero] non-tombstoned members". -/
theorem C3_counterexample :
    kbCurrentKeys
        ⟨[("report_1".toList, KBVal.vnull)], 10, ["report_1".toList], []⟩
        "report_".toList = [] ∧
      (getCollection
        ⟨[("report_1".toList, KBVal.vnull)], 10, ["report_1".toList], []⟩
        "report_".toList).1 = none ∧
      ¬ ∃ m, (getCollection
        ⟨[("report_1".toList, KBVal.vnull)], 10, ["report_1".toList], []⟩
        "report_".toList).1 = some m := by
  refine ⟨by decide, by decide, ?_⟩
  rintro ⟨m, hm⟩
  have : (none : Option (List (OKey × KBVal))) = some m := by
    rw [← hm]
    decide
  simp at this

/-- The non-dependent description of the fresh aggregate: each current member
key paired with its current cached value. -/
theorem aggregate_eq (st : KBState) (ck : OKey)
    (hnd : (st.cache.map Prod.fst).Nodup) :
    kbAggregate st ck = (kbCurrentKeys st ck).map
      (fun x => (x, (List.lookup x st.cache).getD KBVal.vnull)) := by
  have hgraph : ∀ x ∈ kbCurrentKeys st ck,
      (fun k => match List.lookup k st.cache with
        | some v => if v = KBVal.vnull then none else some (k, v)
        | none => none) x =
        some (x, (List.lookup x st.cache).getD KBVal.vnull) := by
    intro x hx
    obtain ⟨v, hmem, hcond⟩ := mem_currentKeys.mp hx
    have hvv : v ≠ KBVal.vnull := by
      unfold memberCond at hcond
      simp only [Bool.and_eq_true, Bool.not_eq_eq_eq_not, Bool.not_true,
        beq_eq_false_iff_ne, ne_eq] at hcond
      exact hcond.2
    have hlk : List.lookup x st.cache = some v := lookup_of_mem_nodup _ x v hnd hmem
    simp only [hlk, Option.getD_some]
    simp [hvv]
  exact filterMap_graph _ _ _ hgraph

/-- The rebuild path, entered whenever there is no cached aggregate or the
cached one is stale: with at least one present member it returns the fresh
aggregate, whose domain is exactly the present members in cache-iteration
order, each bound to its current cached value. -/
theorem kbRebuild_spec (st : KBState) (ck : OKey)
    (hnd : (st.cache.map Prod.fst).Nodup)
    (hcur : kbCurrentKeys st ck ≠ []) :
    ∃ m, (kbRebuild st ck).1 = some m ∧
      m.map Prod.fst = kbCurrentKeys st ck ∧
      ∀ x ∈ kbCurrentKeys st ck, List.lookup x m = List.lookup x st.cache := by
  unfold kbRebuild
  have hne : kbAggregate st ck ≠ [] := by
    rw [aggregate_eq st ck hnd]
    intro hcontra
    exact hcur (List.map_eq_nil.mp hcontra)
  rw [if_neg hne]
  refine ⟨kbAggregate st ck, rfl, ?_, ?_⟩
  · rw [aggregate_eq st ck hnd, List.map_map]
    exact List.map_id _
  · intro x hx
    rw [aggregate_eq st ck hnd,
      lookup_map_graph _ _ x (currentKeys_nodup hnd) hx]
    obtain ⟨v, hmem, _⟩ := mem_currentKeys.mp hx
    rw [lookup_of_mem_nodup _ x v hnd hmem]
    rfl

/-- Well-formedness of the collection cache: every cached aggregate's domain
is exactly its stored key set.  The code maintains this invariant: entries
are written only by `getCollection`'s rebuild path, which stores the freshly
built `{keys, value}` pair, and every other operation merely deletes
entries. -/
def ccWf (st : KBState) : Prop :=
  ∀ e ∈ st.collectionCache, e.2.2.map Prod.fst = e.2.1

theorem ccWf_empty (n : Nat) : ccWf (kbEmpty n) := by
  intro e he
  simp [kbEmpty] at he

theorem evictOne_cc (s : KBState) (k : OKey) :
    (evictOne s k).collectionCache = s.collectionCache := by
  unfold evictOne
  by_cases h : k = []
  · rw [if_pos h]
  · rw [if_neg h]

theorem foldl_evictOne_cc (l : List OKey) :
    ∀ s : KBState, (l.foldl evictOne s).collectionCache = s.collectionCache := by
  induction l with
  | nil =>
    intro s
    rfl
  | cons a t ih =>
    intro s
    rw [List.foldl_cons, ih (evictOne s a), evictOne_cc]

theorem evictIfNeeded_cc (s : KBState) :
    (evictIfNeeded s).collectionCache = s.collectionCache := by
  unfold evictIfNeeded
  by_cases h : s.maxSize = 0 ∨ s.cache.length ≤ s.maxSize
  · rw [if_pos h]
  · rw [if_neg h]
    exact foldl_evictOne_cc _ s

theorem invalidate_cc_mem (s : KBState) (k : OKey) :
    ∀ e ∈ (invalidateCollectionCache s k).collectionCache,
      e ∈ s.collectionCache := by
  intro e
  unfold invalidateCollectionCache
  split
  · split
    · intro he
      exact List.mem_of_mem_filter he
    · intro he
      exact he
  · intro he
    exact he

theorem mem_ccSet (m : List (OKey × (List OKey × List (OKey × KBVal))))
    (k : OKey) (v : List OKey × List (OKey × KBVal)) :
    ∀ e ∈ ccSet m k v, e ∈ m ∨ e = (k, v) := by
  intro e he
  unfold ccSet at he
  by_cases h : (List.lookup k m).isSome
  · rw [if_pos h] at he
    obtain ⟨p, hp, hpe⟩ := List.mem_map.mp he
    by_cases hpk : p.1 = k
    · rw [if_pos hpk] at hpe
      right
      exact hpe.symm
    · rw [if_neg hpk] at hpe
      left
      rw [← hpe]
      exact hp
  · rw [if_neg h] at he
    rcases List.mem_append.mp he with h2 | h2
    · exact Or.inl h2
    · right
      exact List.mem_singleton.mp h2

theorem ccWf_kbRebuild (st : KBState) (ck : OKey)
    (hnd : (st.cache.map Prod.fst).Nodup) (hwf : ccWf st) :
    ccWf (kbRebuild st ck).2 := by
  unfold kbRebuild
  by_cases hagg : kbAggregate st ck = []
  · rw [if_pos hagg]
    exact hwf
  · rw [if_neg hagg]
    intro e he
    rcases mem_ccSet _ _ _ e he with h | h
    · exact hwf e h
    · rw [h]
      dsimp only
      rw [aggregate_eq st ck hnd, List.map_map]
      exact List.map_id _

/-- `set` preserves the collection-cache invariant: it only ever deletes
collection-cache entries (via invalidation; eviction never touches them). -/
theorem ccWf_kbSet (st : KBState) (k : OKey) (v : KBVal) (hwf : ccWf st) :
    ccWf (kbSet st k v) := by
  unfold kbSet
  intro e he
  rw [evictIfNeeded_cc] at he
  have he2 := invalidate_cc_mem _ k e he
  exact hwf e he2

/-- `getCollection` preserves the collection-cache invariant: its only write
is the rebuild path caching the freshly built pair. -/
theorem ccWf_getCollection (st : KBState) (ck : OKey)
    (hnd : (st.cache.map Prod.fst).Nodup) (hwf : ccWf st) :
    ccWf (getCollection st ck).2 := by
  unfold getCollection
  by_cases hck : ck.getLast? ≠ some '_'
  · rw [if_pos hck]
    exact hwf
  · rw [if_neg hck]
    cases hcc : List.lookup ck st.collectionCache with
    | some cached =>
      dsimp only
      by_cases hhit : (kbCurrentKeys st ck).length = cached.1.length ∧
          (∀ x ∈ kbCurrentKeys st ck, x ∈ cached.1) ∧
          (∀ x ∈ kbCurrentKeys st ck, List.lookup x st.cache =
            List.lookup x cached.2)
      · rw [if_pos hhit]
        exact hwf
      · rw [if_neg hhit]
        exact ccWf_kbRebuild st ck hnd hwf
    | none =>
      dsimp only
      exact ccWf_kbRebuild st ck hnd hwf

theorem lookup_mem_kb {α β : Type} [BEq α] [LawfulBEq α]
    {m : List (α × β)} {k : α} {v : β}
    (h : List.lookup k m = some v) : (k, v) ∈ m := by
  induction m with
  | nil => simp [List.lookup] at h
  | cons p t ih =>
    obtain ⟨a, b⟩ := p
    by_cases hka : (k == a) = true
    · simp only [List.lookup, hka] at h
      have hk : k = a := eq_of_beq hka
      injection h with hv
      subst hk
      subst hv
      exact List.mem_cons_self _ _
    · simp only [List.lookup, Bool.not_eq_true] at h
      rw [Bool.not_eq_true] at hka
      rw [hka] at h
      exact List.mem_cons_of_mem _ (ih h)

/-- C3 (amended): for a collection key (ending in the delimiter) over a cache
with no duplicate keys, under the code-maintained invariant that every cached
aggregate's domain equals its stored key set:
(1) with no cached aggregate and no present (non-tombstoned) member,
`getCollection` returns `undefined` rather than an empty mapping;
(2) with at least one present member — whether there is no cached aggregate,
a stale one (rebuilt), or a current one (returned as cached) — it returns a
mapping whose domain is exactly the set of present members, each bound to its
current cached value;
(3) when a cached aggregate exists whose membership matches the current
members (equal sizes and containment) and whose per-member entries are
identical (reference-equal) to the live cache, the identical cached mapping
instance is returned. -/
theorem C3_getCollection_members_and_stability (st : KBState) (ck : OKey)
    (hck : ck.getLast? = some '_')
    (hnd : (st.cache.map Prod.fst).Nodup)
    (hwf : ccWf st) :
    (List.lookup ck st.collectionCache = none → kbCurrentKeys st ck = [] →
      (getCollection st ck).1 = none) ∧
    (kbCurrentKeys st ck ≠ [] →
      ∃ m, (getCollection st ck).1 = some m ∧
        (∀ x, x ∈ m.map Prod.fst ↔ x ∈ kbCurrentKeys st ck) ∧
        ∀ x ∈ kbCurrentKeys st ck, List.lookup x m = List.lookup x st.cache) ∧
    (∀ ckeys cval, List.lookup ck st.collectionCache = some (ckeys, cval) →
      (kbCurrentKeys st ck).length = ckeys.length →
      (∀ x ∈ kbCurrentKeys st ck, x ∈ ckeys) →
      (∀ x ∈ kbCurrentKeys st ck, List.lookup x st.cache =
        List.lookup x cval) →
      (getCollection st ck).1 = some cval) := by
  have hckT : ¬ ck.getLast? ≠ some '_' := by
    simp [hck]
  refine ⟨?_, ?_, ?_⟩
  · intro hcc hcur
    unfold getCollection
    rw [if_neg hckT, hcc]
    unfold kbRebuild
    have hagg0 : kbAggregate st ck = [] := by
      rw [aggregate_eq st ck hnd, hcur]
      rfl
    rw [if_pos hagg0]
  · intro hcur
    unfold getCollection
    rw [if_neg hckT]
    cases hcc : List.lookup ck st.collectionCache with
    | none =>
      dsimp only
      obtain ⟨m, h1, h2, h3⟩ := kbRebuild_spec st ck hnd hcur
      refine ⟨m, h1, ?_, h3⟩
      intro x
      rw [h2]
    | some cached =>
      obtain ⟨ckeys, cval⟩ := cached
      dsimp only
      by_cases hhit : (kbCurrentKeys st ck).length = ckeys.length ∧
          (∀ x ∈ kbCurrentKeys st ck, x ∈ ckeys) ∧
          (∀ x ∈ kbCurrentKeys st ck, List.lookup x st.cache =
            List.lookup x cval)
      · rw [if_pos hhit]
        obtain ⟨hlen, hsub, hval⟩ := hhit
        have hmemcc : (ck, (ckeys, cval)) ∈ st.collectionCache :=
          lookup_mem_kb hcc
        have hwfe : cval.map Prod.fst = ckeys := hwf _ hmemcc
        have hperm : (kbCurrentKeys st ck).Perm ckeys :=
          (List.Nodup.subperm (currentKeys_nodup hnd)
            (fun x hx => hsub x hx)).perm_of_length_le (le_of_eq hlen.symm)
        refine ⟨cval, rfl, ?_, ?_⟩
        · intro x
          constructor
          · intro hx
            rw [hwfe] at hx
            exact hperm.mem_iff.mpr hx
          · intro hx
            obtain ⟨v, hmem, _⟩ := mem_currentKeys.mp hx
            have hvx : List.lookup x cval = some v := by
              rw [← hval x hx]
              exact lookup_of_mem_nodup _ x v hnd hmem
            exact List.mem_map_of_mem Prod.fst (lookup_mem_kb hvx)
        · intro x hx
          exact (hval x hx).symm
      · rw [if_neg hhit]
        obtain ⟨m, h1, h2, h3⟩ := kbRebuild_spec st ck hnd hcur
        refine ⟨m, h1, ?_, h3⟩
        intro x
        rw [h2]
  · intro ckeys cval hcc hlen hsub hval
    unfold getCollection
    rw [if_neg hckT, hcc]
    dsimp only
    rw [if_pos ⟨hlen, hsub, hval⟩]

/-- Witness for C3 (amended) at a concrete single-member collection carrying
a STALE cached aggregate (cached value `vdata 4`, live value `vdata 5`): the
rebuild path returns the current member bound to its current value. -/
theorem C3_witness :
    ("report_".toList.getLast? = some '_') ∧
      (([("report_1".toList, KBVal.vdata 5)].map
        (Prod.fst (β := KBVal))).Nodup) ∧
      ccWf ⟨[("report_1".toList, KBVal.vdata 5)], 10, ["report_1".toList],
        [("report_".toList, (["report_1".toList],
          [("report_1".toList, KBVal.vdata 4)]))]⟩ ∧
      kbCurrentKeys ⟨[("report_1".toList, KBVal.vdata 5)], 10,
        ["report_1".toList],
        [("report_".toList, (["report_1".toList],
          [("report_1".toList, KBVal.vdata 4)]))]⟩ "report_".toList ≠ [] ∧
      ∃ m, (getCollection ⟨[("report_1".toList, KBVal.vdata 5)], 10,
          ["report_1".toList],
          [("report_".toList, (["report_1".toList],
            [("report_1".toList, KBVal.vdata 4)]))]⟩ "report_".toList).1 =
          some m ∧
        (∀ x, x ∈ m.map Prod.fst ↔ x ∈ kbCurrentKeys
          ⟨[("report_1".toList, KBVal.vdata 5)], 10, ["report_1".toList],
            [("report_".toList, (["report_1".toList],
              [("report_1".toList, KBVal.vdata 4)]))]⟩ "report_".toList) ∧
        ∀ x ∈ kbCurrentKeys
            ⟨[("report_1".toList, KBVal.vdata 5)], 10, ["report_1".toList],
              [("report_".toList, (["report_1".toList],
                [("report_1".toList, KBVal.vdata 4)]))]⟩ "report_".toList,
          List.lookup x m =
            List.lookup x ([("report_1".toList, KBVal.vdata 5)]) := by
  have hwf : ccWf ⟨[("report_1".toList, KBVal.vdata 5)], 10,
      ["report_1".toList],
      [("report_".toList, (["report_1".toList],
        [("report_1".toList, KBVal.vdata 4)]))]⟩ := by
    intro e he
    rw [List.mem_singleton.mp he]
    decide
  refine ⟨by decide, by decide, hwf, by decide, ?_⟩
  exact (C3_getCollection_members_and_stability
    ⟨[("report_1".toList, KBVal.vdata 5)], 10, ["report_1".toList],
      [("report_".toList, (["report_1".toList],
        [("report_1".toList, KBVal.vdata 4)]))]⟩
    "report_".toList (by decide) (by decide) hwf).2.1 (by decide)

end KBCache

namespace ConnMgr

/-- Metadata of one deduplicated connection (`ConnectionMetadata`).
Caller callbacks are opaque tokens (`Nat`); callback IDs are generated from
the `lastCallbackID` counter — the source stringifies the counter
(`String(this.lastCallbackID++)`), which is injective, so the model keeps the
number itself. -/
structure ConnMeta where
  onyxKey : String
  isConnectionMade : Bool
  callbacks : List (Nat × Nat)
  waitForCollectionCallback : Bool
deriving Repr, DecidableEq

/-- State of the `ConnectionManager` class.  `guidCounter` drives `guid()`
(the source derives GUIDs from `Date.now()` + `Math.random()`; the model
idealizes them as distinct values of a counter).  `subscriptionsMade` counts
the `subscriptionHandler` registrations performed — one per underlying
NotificationHub registration. -/
structure CMState where
  connectionsMap : List (String × ConnMeta)
  lastCallbackID : Nat
  sessionID : String
  guidCounter : Nat
  subscriptionsMade : Nat
deriving Repr, DecidableEq

/-- `guid()`: a fresh unique string. -/
def guid (st : CMState) : String × CMState :=
  (toString st.guidCounter, { st with guidCounter := st.guidCounter + 1 })

/-- `isCollectionKey(key)`: ends with `'_'` (expressed on the character
list so it evaluates by kernel reduction). -/
def isCollectionKeyS (key : String) : Bool :=
  key.data.getLast? == some '_'

/-- JS `Map.set` on the connections map. -/
def cmSet (m : List (String × ConnMeta)) (k : String) (v : ConnMeta) :
    List (String × ConnMeta) :=
  if (List.lookup k m).isSome then
    m.map (fun p => if p.1 = k then (k, v) else p)
  else m ++ [(k, v)]

/-- `generateConnectionID(connectOptions)`: deterministic from
`(key, waitForCollectionCallback, sessionID)` — except that a collection key
without `waitForCollectionCallback` gets a fresh `uniqueID` suffix on every
call. -/
def generateConnectionID (st : CMState) (key : String) (wFCC : Bool) :
    String × CMState :=
  if isCollectionKeyS key && !wFCC then
    ("onyxKey=" ++ key ++ ",waitForCollectionCallback=" ++
        (if wFCC then "true" else "false") ++ ",sessionID=" ++ st.sessionID ++
        ",uniqueID=" ++ (guid st).1,
      (guid st).2)
  else
    ("onyxKey=" ++ key ++ ",waitForCollectionCallback=" ++
        (if wFCC then "true" else "false") ++ ",sessionID=" ++ st.sessionID,
      st)

/-- `connect(connectOptions)`: compute the connection ID, allocate a callback
ID, create the metadata and perform the single `subscriptionHandler`
registration when the ID is new, then add the caller's callback to the shared
metadata (the source creates the metadata with an empty callback map and adds
the callback immediately afterwards; the model builds the final map
directly).  Returns `((connectionID, callbackID), newState)`. -/
def connect (st : CMState) (key : String) (wFCC : Bool) (cb : Nat) :
    (String × Nat) × CMState :=
  match List.lookup (generateConnectionID st key wFCC).1
      (generateConnectionID st key wFCC).2.connectionsMap with
  | some meta =>
    (((generateConnectionID st key wFCC).1,
        (generateConnectionID st key wFCC).2.lastCallbackID),
      { (generateConnectionID st key wFCC).2 with
        lastCallbackID := (generateConnectionID st key wFCC).2.lastCallbackID + 1
        connectionsMap := cmSet (generateConnectionID st key wFCC).2.connectionsMap
          (generateConnectionID st key wFCC).1
          { meta with callbacks := meta.callbacks ++
              [((generateConnectionID st key wFCC).2.lastCallbackID, cb)] } })
  | none =>
    (((generateConnectionID st key wFCC).1,
        (generateConnectionID st key wFCC).2.lastCallbackID),
      { (generateConnectionID st key wFCC).2 with
        lastCallbackID := (generateConnectionID st key wFCC).2.lastCallbackID + 1
        connectionsMap := (generateConnectionID st key wFCC).2.connectionsMap ++
          [((generateConnectionID st key wFCC).1,
            { onyxKey := key, isConnectionMade := false,
              callbacks := [((generateConnectionID st key wFCC).2.lastCallbackID, cb)],
              waitForCollectionCallback := wFCC })]
        subscriptionsMade :=
          (generateConnectionID st key wFCC).2.subscriptionsMade + 1 })

/-- A fresh manager. -/
def cmEmpty : CMState := ⟨[], 0, "s0", 0, 0⟩

end ConnMgr

namespace ConnMgr

/-- The deterministic connection ID used whenever no `uniqueID` suffix is
appended. -/
def connIDOf (sid key : String) (wFCC : Bool) : String :=
  "onyxKey=" ++ key ++ ",waitForCollectionCallback=" ++
    (if wFCC then "true" else "false") ++ ",sessionID=" ++ sid

theorem genID_stable (st : CMState) (key : String) (wFCC : Bool)
    (hnc : ¬ (isCollectionKeyS key = true ∧ wFCC = false)) :
    generateConnectionID st key wFCC = (connIDOf st.sessionID key wFCC, st) := by
  unfold generateConnectionID connIDOf
  have hcond : (isCollectionKeyS key && !wFCC) = false := by
    cases hw : isCollectionKeyS key
    · simp
    · cases hv : wFCC
      · exact absurd ⟨hw, hv⟩ hnc
      · simp
  rw [hcond]
  simp

theorem lookup_mem {α β : Type} [BEq α] [LawfulBEq α]
    {m : List (α × β)} {k : α} {v : β}
    (h : List.lookup k m = some v) : (k, v) ∈ m := by
  induction m with
  | nil => simp [List.lookup] at h
  | cons p t ih =>
    obtain ⟨a, b⟩ := p
    by_cases hka : (k == a) = true
    · simp only [List.lookup, hka] at h
      have hk : k = a := eq_of_beq hka
      injection h with hv
      subst hk
      subst hv
      exact List.mem_cons_self _ _
    · simp only [List.lookup, Bool.not_eq_true] at h
      rw [Bool.not_eq_true] at hka
      rw [hka] at h
      exact List.mem_cons_of_mem _ (ih h)

theorem lookup_map_replace (m : List (String × ConnMeta)) (k : String)
    (v : ConnMeta) (h : (List.lookup k m).isSome) :
    List.lookup k (m.map (fun p => if p.1 = k then (k, v) else p)) = some v := by
  induction m with
  | nil => simp [List.lookup] at h
  | cons p t ih =>
    obtain ⟨a, b⟩ := p
    by_cases hka : a = k
    · subst hka
      have hif : ((a, b).1 = a) := rfl
      rw [List.map_cons, if_pos hif]
      simp [List.lookup]
    · have hif : ¬ ((a, b).1 = k) := hka
      have hne : (k == a) = false := by
        simp only [beq_eq_false_iff_ne, ne_eq]
        exact fun he => hka he.symm
      rw [List.map_cons, if_neg hif]
      simp only [List.lookup, hne] at h ⊢
      exact ih h

theorem lookup_append_of_none {α β : Type} [BEq α]
    (m rest : List (α × β)) (k : α) (h : List.lookup k m = none) :
    List.lookup k (m ++ rest) = List.lookup k rest := by
  induction m with
  | nil => simp
  | cons p t ih =>
    obtain ⟨a, b⟩ := p
    by_cases hka : (k == a) = true
    · simp [List.lookup, hka] at h
    · rw [Bool.not_eq_true] at hka
      simp only [List.lookup, hka] at h
      simp only [List.cons_append, List.lookup, hka]
      exact ih h

theorem lookup_cmSet_self (m : List (String × ConnMeta)) (k : String)
    (v : ConnMeta) : List.lookup k (cmSet m k v) = some v := by
  unfold cmSet
  by_cases h : (List.lookup k m).isSome
  · rw [if_pos h]
    exact lookup_map_replace m k v h
  · rw [if_neg h]
    have hnone : List.lookup k m = none := by
      cases hl : List.lookup k m
      · rfl
      · rw [hl] at h
        simp at h
    rw [lookup_append_of_none m _ k hnone]
    simp [List.lookup]

theorem lookup_skip_small (base rest : List (Nat × Nat)) (bound k v2 : Nat)
    (hb : ∀ q ∈ base, q.1 < bound) (hk : bound ≤ k) :
    List.lookup k (base ++ (k, v2) :: rest) = some v2 := by
  induction base with
  | nil => simp [List.lookup]
  | cons q t ih =>
    obtain ⟨a, b⟩ := q
    have ha : a < bound := hb (a, b) (List.mem_cons_self _ _)
    have hne : (k == a) = false := by
      simp only [beq_eq_false_iff_ne, ne_eq]
      omega
    simp only [List.cons_append, List.lookup, hne]
    exact ih (fun q hq => hb q (List.mem_cons_of_mem _ hq))

/-- One `connect` call when the connection ID carries no `uniqueID` suffix:
the ID is deterministic, the callback ID is the counter, and the connections
map either gains the caller's callback on the existing shared metadata or a
single fresh registration. -/
theorem connect_cases (st : CMState) (key : String) (wFCC : Bool) (cb : Nat)
    (hnc : ¬ (isCollectionKeyS key = true ∧ wFCC = false)) :
    (connect st key wFCC cb).1.1 = connIDOf st.sessionID key wFCC ∧
    (connect st key wFCC cb).1.2 = st.lastCallbackID ∧
    (connect st key wFCC cb).2.sessionID = st.sessionID ∧
    (connect st key wFCC cb).2.lastCallbackID = st.lastCallbackID + 1 ∧
    ((∃ meta0,
        List.lookup (connIDOf st.sessionID key wFCC) st.connectionsMap =
          some meta0 ∧
        (connect st key wFCC cb).2.connectionsMap =
          cmSet st.connectionsMap (connIDOf st.sessionID key wFCC)
            { meta0 with callbacks :=
                meta0.callbacks ++ [(st.lastCallbackID, cb)] } ∧
        (connect st key wFCC cb).2.subscriptionsMade =
          st.subscriptionsMade) ∨
      (List.lookup (connIDOf st.sessionID key wFCC) st.connectionsMap = none ∧
        (connect st key wFCC cb).2.connectionsMap =
          st.connectionsMap ++ [(connIDOf st.sessionID key wFCC,
            ⟨key, false, [(st.lastCallbackID, cb)], wFCC⟩)] ∧
        (connect st key wFCC cb).2.subscriptionsMade =
          st.subscriptionsMade + 1)) := by
  unfold connect
  simp only [genID_stable st key wFCC hnc]
  cases hl : List.lookup (connIDOf st.sessionID key wFCC) st.connectionsMap with
  | some meta0 =>
    dsimp only
    exact ⟨rfl, rfl, rfl, rfl, Or.inl ⟨meta0, rfl, rfl, rfl⟩⟩
  | none =>
    dsimp only
    exact ⟨rfl, rfl, rfl, rfl, Or.inr ⟨rfl, rfl, rfl⟩⟩

end ConnMgr

namespace ConnMgr

/-- C9 counterexample: two `connect` calls with the identical
`(target, collectionMode)` pair — the collection key `"report_"` with
`waitForCollectionCallback = false` — receive different connection IDs (a
fresh `uniqueID` suffix each) and perform two underlying registrations, not
one. -/
theorem C9_counterexample :
    (connect cmEmpty "report_" false 1).1.1 ≠
        (connect (connect cmEmpty "report_" false 1).2 "report_" false 2).1.1 ∧
      (connect (connect cmEmpty "report_" false 1).2
        "report_" false 2).2.subscriptionsMade = 2 := by
  exact ⟨by decide, by decide⟩

/-- C9 (amended): `connect` deduplicates identical `(target, collectionMode)`
pairs into one underlying registration exactly when the connection ID carries
no `uniqueID` suffix — i.e. for non-collection targets, and for collection
targets with `waitForCollectionCallback`.  In that case two calls map to the
same connection ID, the second call performs no additional underlying
registration, and both callers' callbacks are held by the single shared
metadata entry.  (Collection targets without `waitForCollectionCallback` get
a unique registration per call, as the counterexample shows.) -/
theorem C9_connect_dedup (st : CMState) (key : String) (wFCC : Bool)
    (cb1 cb2 : Nat)
    (hnc : ¬ (isCollectionKeyS key = true ∧ wFCC = false))
    (hinv : ∀ p ∈ st.connectionsMap, ∀ q ∈ p.2.callbacks,
      q.1 < st.lastCallbackID) :
    (connect st key wFCC cb1).1.1 =
        (connect (connect st key wFCC cb1).2 key wFCC cb2).1.1 ∧
      (connect (connect st key wFCC cb1).2 key wFCC cb2).2.subscriptionsMade =
        (connect st key wFCC cb1).2.subscriptionsMade ∧
      ∃ meta,
        List.lookup (connect st key wFCC cb1).1.1
            (connect (connect st key wFCC cb1).2 key wFCC
              cb2).2.connectionsMap = some meta ∧
          List.lookup (connect st key wFCC cb1).1.2 meta.callbacks =
            some cb1 ∧
          List.lookup (connect (connect st key wFCC cb1).2 key wFCC cb2).1.2
            meta.callbacks = some cb2 := by
  obtain ⟨hid1, hcb1, hsid1, hlc1, hbr1⟩ := connect_cases st key wFCC cb1 hnc
  obtain ⟨hid2, hcb2, hsid2, hlc2, hbr2⟩ :=
    connect_cases (connect st key wFCC cb1).2 key wFCC cb2 hnc
  rw [hsid1] at hid2 hbr2
  -- the shared metadata after the first call
  have hmetaA : ∃ base fl fk fw,
      List.lookup (connIDOf st.sessionID key wFCC)
        (connect st key wFCC cb1).2.connectionsMap =
        some ⟨fk, fl, base ++ [(st.lastCallbackID, cb1)], fw⟩ ∧
      ∀ q ∈ base, q.1 < st.lastCallbackID := by
    rcases hbr1 with ⟨meta0, hl0, hmap1, _⟩ | ⟨hl0, hmap1, _⟩
    · refine ⟨meta0.callbacks, meta0.isConnectionMade, meta0.onyxKey,
        meta0.waitForCollectionCallback, ?_, ?_⟩
      · rw [hmap1]
        exact lookup_cmSet_self _ _ _
      · intro q hq
        exact hinv _ (lookup_mem hl0) q hq
    · refine ⟨[], false, key, wFCC, ?_, ?_⟩
      · rw [hmap1, lookup_append_of_none _ _ _ hl0]
        simp [List.lookup]
      · intro q hq
        simp at hq
  obtain ⟨base, fl, fk, fw, hlA, hbase⟩ := hmetaA
  rcases hbr2 with ⟨meta0', hl0', hmap2, hsub2⟩ | ⟨hl0', _, _⟩
  · have hmeta' : meta0' = ⟨fk, fl, base ++ [(st.lastCallbackID, cb1)], fw⟩ := by
      rw [hl0'] at hlA
      exact Option.some.inj hlA.symm |>.symm
    subst hmeta'
    refine ⟨hid1.trans hid2.symm, hsub2, ?_⟩
    have hb' : ∀ q ∈ base ++ [(st.lastCallbackID, cb1)],
        q.1 < st.lastCallbackID + 1 := by
      intro q hq
      rcases List.mem_append.mp hq with h | h
      · have := hbase q h
        omega
      · simp only [List.mem_singleton] at h
        subst h
        show st.lastCallbackID < st.lastCallbackID + 1
        omega
    refine ⟨⟨fk, fl,
        (base ++ [(st.lastCallbackID, cb1)]) ++
          [((connect st key wFCC cb1).2.lastCallbackID, cb2)], fw⟩,
      ?_, ?_, ?_⟩
    · rw [hid1, hmap2]
      exact lookup_cmSet_self _ _ _
    · rw [hcb1]
      dsimp only
      rw [List.append_assoc, List.singleton_append]
      exact lookup_skip_small base _ st.lastCallbackID st.lastCallbackID cb1
        hbase (le_refl _)
    · rw [hcb2]
      dsimp only
      rw [hlc1]
      exact lookup_skip_small (base ++ [(st.lastCallbackID, cb1)]) []
        (st.lastCallbackID + 1) (st.lastCallbackID + 1) cb2 hb' (le_refl _)
  · rw [hlA] at hl0'
    simp at hl0'

/-- Witness for C9 (amended): two `connect` calls for the plain key
`"session"` from the fresh manager share one connection ID, one underlying
registration, and one metadata entry holding both callbacks. -/
theorem C9_witness :
    (¬ (isCollectionKeyS "session" = true ∧ false = false)) ∧
      (connect cmEmpty "session" false 7).1.1 =
        (connect (connect cmEmpty "session" false 7).2 "session" false 8).1.1 := by
  have hnc : ¬ (isCollectionKeyS "session" = true ∧ false = false) := by
    intro h
    exact absurd h.1 (by decide)
  have hinv : ∀ p ∈ cmEmpty.connectionsMap, ∀ q ∈ p.2.callbacks,
      q.1 < cmEmpty.lastCallbackID := by
    intro p hp
    simp [cmEmpty] at hp
  exact ⟨hnc, (C9_connect_dedup cmEmpty "session" false 7 8 hnc hinv).1⟩

end ConnMgr

namespace ProxyConn

/-- A JS object reference: an allocation identity plus the payload it
deep-equals.  `!==` distinguishes references (pair inequality); value
equality compares only the payload. -/
structure RVal where
  ref : Nat
  data : Nat
deriving Repr, DecidableEq

/-- Value equality (`deepEqual`) on nullable payloads. -/
def valueEq (x y : Option RVal) : Prop :=
  x.map RVal.data = y.map RVal.data

instance (x y : Option RVal) : Decidable (valueEq x y) := by
  unfold valueEq
  infer_instance

/-- JS object property assignment on the proxied top-level state. -/
def pmapSet (m : List (String × RVal)) (k : String) (v : RVal) :
    List (String × RVal) :=
  if (List.lookup k m).isSome then
    m.map (fun p => if p.1 = k then (k, v) else p)
  else m ++ [(k, v)]

/-- The machine for one `connect(options)` subscriber of the ProxyBased
prototype: the top-level state object, the listener's captured `lastValue`,
and the trace of payloads delivered to the callback. -/
structure PMach where
  store : List (String × RVal)
  last : Option RVal
  delivered : List (Option RVal)
deriving Repr, DecidableEq

/-- `state[k] = v` through the proxy `set` trap, as observed by the single
subscriber on `k0`.  `Reflect.set` always stores; the global listeners fire
only when `prevValue !== value`; the connect listener reads
`state[k0] || null` (objects are truthy, so only an absent key gives null —
`none` here) and invokes the callback only when that is `!==`-different from
`lastValue`. -/
def stepSet (k0 : String) (m : PMach) (k : String) (v : RVal) : PMach :=
  if List.lookup k m.store = some v then
    { m with store := pmapSet m.store k v }
  else if List.lookup k0 (pmapSet m.store k v) = m.last then
    { m with store := pmapSet m.store k v }
  else
    { store := pmapSet m.store k v,
      last := List.lookup k0 (pmapSet m.store k v),
      delivered := m.delivered ++ [List.lookup k0 (pmapSet m.store k v)] }

/-- A run of top-level sets observed by a subscriber on `k0`, starting from
the empty state with nothing delivered. -/
def run (k0 : String) (ops : List (String × RVal)) : PMach :=
  ops.foldl (fun m p => stepSet k0 m p.1 p.2) ⟨[], none, []⟩

/-- C2 counterexample: setting `"k"` to a fresh object that is value-equal
(`data = 5`) to the previously delivered one invokes the subscriber's
callback again — two consecutive deliveries with value-equal payloads, which
the claim forbids. -/
theorem C2_counterexample :
    (run "k" [("k", ⟨1, 5⟩), ("k", ⟨2, 5⟩)]).delivered =
        [some ⟨1, 5⟩, some ⟨2, 5⟩] ∧
      valueEq (some ⟨1, 5⟩) (some ⟨2, 5⟩) ∧
      ¬ (run "k" [("k", ⟨1, 5⟩), ("k", ⟨2, 5⟩)]).delivered.Chain'
        (fun a b => ¬ valueEq a b) := by
  refine ⟨by decide, by decide, ?_⟩
  intro h
  rw [(by decide : (run "k" [("k", ⟨1, 5⟩), ("k", ⟨2, 5⟩)]).delivered =
    [some ⟨1, 5⟩, some ⟨2, 5⟩])] at h
  have := List.chain'_cons.mp h
  exact this.1 (by decide)

/-- C2 (amended): the suppression performed by the ProxyBased `connect`
listener is by reference, not value: a mutation after which the stored
reference at the subscribed key is `===` to the last delivered value invokes
no callback, and consecutive delivered payloads are always distinct
references — while value-equal but reference-distinct payloads may be
delivered back to back, as the counterexample shows. -/
theorem C2_reference_suppression :
    (∀ (k0 : String) (m : PMach) (k : String) (v : RVal),
        List.lookup k0 (pmapSet m.store k v) = m.last →
        (stepSet k0 m k v).delivered = m.delivered) ∧
      ∀ (k0 : String) (ops : List (String × RVal)),
        (run k0 ops).delivered.Chain' (fun a b => a ≠ b) := by
  constructor
  · intro k0 m k v hsame
    unfold stepSet
    by_cases h1 : List.lookup k m.store = some v
    · rw [if_pos h1]
    · rw [if_neg h1, if_pos hsame]
  · intro k0 ops
    suffices h : ∀ (ops : List (String × RVal)) (m : PMach),
        m.delivered.Chain' (fun a b => a ≠ b) →
        (m.delivered = [] ∨ m.delivered.getLast? = some m.last) →
        ((ops.foldl (fun m p => stepSet k0 m p.1 p.2) m).delivered.Chain'
          (fun a b => a ≠ b)) by
      exact h ops ⟨[], none, []⟩ (by simp) (Or.inl rfl)
    intro ops
    induction ops with
    | nil =>
      intro m hchain _
      exact hchain
    | cons op rest ih =>
      intro m hchain hlastinv
      simp only [List.foldl_cons]
      apply ih
      · unfold stepSet
        by_cases h1 : List.lookup op.1 m.store = some op.2
        · rw [if_pos h1]
          exact hchain
        · rw [if_neg h1]
          by_cases h2 : List.lookup k0 (pmapSet m.store op.1 op.2) = m.last
          · rw [if_pos h2]
            exact hchain
          · rw [if_neg h2]
            dsimp only
            rw [List.chain'_append]
            refine ⟨hchain, List.chain'_singleton _, ?_⟩
            intro x hx y hy
            rcases hlastinv with hemp | hlast
            · rw [hemp] at hx
              simp at hx
            · rw [hlast] at hx
              simp only [Option.mem_def, Option.some.injEq] at hx
              simp only [List.head?_cons, Option.mem_def,
                Option.some.injEq] at hy
              subst hx
              subst hy
              exact fun he => h2 he.symm
      · unfold stepSet
        by_cases h1 : List.lookup op.1 m.store = some op.2
        · rw [if_pos h1]
          exact hlastinv
        · rw [if_neg h1]
          by_cases h2 : List.lookup k0 (pmapSet m.store op.1 op.2) = m.last
          · rw [if_pos h2]
            exact hlastinv
          · rw [if_neg h2]
            dsimp only
            right
            rw [List.getLast?_concat]

/-- Witness for C2 (amended): re-setting the identical reference delivers
nothing new. -/
theorem C2_witness :
    List.lookup "k" (pmapSet
        (⟨[("k", ⟨1, 5⟩)], some ⟨1, 5⟩, [some ⟨1, 5⟩]⟩ : PMach).store
        "k" ⟨1, 5⟩) =
      (⟨[("k", ⟨1, 5⟩)], some ⟨1, 5⟩, [some ⟨1, 5⟩]⟩ : PMach).last ∧
    (stepSet "k" ⟨[("k", ⟨1, 5⟩)], some ⟨1, 5⟩, [some ⟨1, 5⟩]⟩
        "k" ⟨1, 5⟩).delivered = [some ⟨1, 5⟩] := by
  refine ⟨by decide, ?_⟩
  exact C2_reference_suppression.1 "k"
    ⟨[("k", ⟨1, 5⟩)], some ⟨1, 5⟩, [some ⟨1, 5⟩]⟩ "k" ⟨1, 5⟩ (by decide)

end ProxyConn

namespace MergeImmer

/-- A JS value as handled by `OnyxMergeImmer`.  Primitives (numbers,
strings, booleans) are collapsed into `prim truthy id`: `truthy` models JS
truthiness (used by the `||` fallback and the marker check), `id`
distinguishes values.  (The spread of a string into indexed characters is
not modelled; primitives spread to `{}` like numbers and booleans.) -/
inductive JVal where
  | null
  | prim (truthy : Bool) (id : Nat)
  | arr (elems : List JVal)
  | obj (fields : List (String × JVal))
deriving Repr

/-- `ONYX_INTERNALS__REPLACE_OBJECT_MARK`. -/
def MARK : String := "ONYX_INTERNALS__REPLACE_OBJECT_MARK"

/-- The JS boolean `true` stored under the marker key. -/
def jtrue : JVal := .prim true 1

/-- `objectRemovalMode`. -/
inductive Mode where
  | mark
  | replace
  | off
deriving Repr, DecidableEq, BEq

/-- `FastMergeOptions` after `optionsWithDefaults` has been applied
(`off` is the source's `'none'`). -/
structure FMOptions where
  shouldRemoveNestedNulls : Bool
  objectRemovalMode : Mode
deriving Repr, DecidableEq

def isNull : JVal → Bool
  | .null => true
  | _ => false

def isArr : JVal → Bool
  | .arr _ => true
  | _ => false

/-- `typeof v === 'object' && v !== null` (arrays included). -/
def isObjLike : JVal → Bool
  | .arr _ => true
  | .obj _ => true
  | _ => false

/-- A non-array, non-null object. -/
def isObjNonArr : JVal → Bool
  | .obj _ => true
  | _ => false

/-- JS truthiness. -/
def truthy : JVal → Bool
  | .null => false
  | .prim t _ => t
  | .arr _ => true
  | .obj _ => true

def fieldsOf : JVal → List (String × JVal)
  | .obj f => f
  | _ => []

/-- `targetProperty || {}` followed by property access: an object keeps its
fields, an array exposes index-named fields, anything else has none. -/
def fieldsLike : Option JVal → List (String × JVal)
  | some (.obj f) => f
  | some (.arr xs) => xs.enum.map (fun p => (toString p.1, p.2))
  | _ => []

/-- `{...v}`: shallow copy of an object's own fields; an array spreads to
index-named fields; primitives and null spread to nothing. -/
def spreadFields : JVal → List (String × JVal)
  | .obj f => f
  | .arr xs => xs.enum.map (fun p => (toString p.1, p.2))
  | _ => []

def getF (f : List (String × JVal)) (k : String) : Option JVal :=
  List.lookup k f

/-- Is the draft value at the key literally `null` (`draft[key] === null`)? -/
def isNullOpt : Option JVal → Bool
  | some .null => true
  | _ => false

/-- JS object property assignment: replace in place, else append. -/
def setF (f : List (String × JVal)) (k : String) (v : JVal) :
    List (String × JVal) :=
  if (List.lookup k f).isSome then
    f.map (fun p => if p.1 = k then (k, v) else p)
  else f ++ [(k, v)]

/-- JS `delete obj[k]`. -/
def delF (f : List (String × JVal)) (k : String) : List (String × JVal) :=
  f.filter (fun p => decide (p.1 ≠ k))

/-- `(sourceProperty)[MARK]` is truthy. -/
def hasMark (v : JVal) : Bool :=
  match v with
  | .obj f =>
    match List.lookup MARK f with
    | some w => truthy w
    | none => false
  | _ => false

/-- `{...sourceProperty}` with the marker property deleted. -/
def stripMark (v : JVal) : JVal :=
  match v with
  | .obj f => .obj (f.filter (fun p => decide (p.1 ≠ MARK)))
  | w => w

/-- `{...(source)}` plus `[MARK] = true`. -/
def markSpread (v : JVal) : JVal :=
  .obj (setF (spreadFields v) MARK jtrue)

/-- `removeNestedNullValuesImmer`: null/primitives unchanged; arrays map the
cleanup over their elements and drop resulting nulls; objects drop nullish
fields, recurse into non-array object fields and keep everything else
as is. -/
def removeNestedNullValuesImmer : JVal → JVal
  | .null => .null
  | .prim t i => .prim t i
  | .arr xs =>
    .arr ((xs.attach.map (fun x => removeNestedNullValuesImmer x.1)).filter
      (fun w => !isNull w))
  | .obj fs =>
    .obj (fs.attach.filterMap (fun p =>
      if isNull p.1.2 then none
      else if isObjNonArr p.1.2 then
        some (p.1.1, removeNestedNullValuesImmer p.1.2)
      else some p.1))
decreasing_by
  · have h := List.sizeOf_lt_of_mem x.2
    simp only [JVal.arr.sizeOf_spec]
    omega
  · have h := List.sizeOf_lt_of_mem p.2
    have h2 : sizeOf p.1.2 < sizeOf p.1 := by
      obtain ⟨⟨a, b⟩, hp⟩ := p
      simp only [Prod.mk.sizeOf_spec]
      omega
    simp only [JVal.obj.sizeOf_spec]
    omega

/-- Field nodup-ness at every object level (JS objects cannot carry
duplicate keys). -/
def wfB : JVal → Bool
  | .null => true
  | .prim _ _ => true
  | .arr xs => xs.attach.all (fun x => wfB x.1)
  | .obj fs =>
    decide ((fs.map Prod.fst).Nodup) && fs.attach.all (fun p => wfB p.1.2)
decreasing_by
  · have h := List.sizeOf_lt_of_mem x.2
    simp only [JVal.arr.sizeOf_spec]
    omega
  · have h := List.sizeOf_lt_of_mem p.2
    have h2 : sizeOf p.1.2 < sizeOf p.1 := by
      obtain ⟨⟨a, b⟩, hp⟩ := p
      simp only [Prod.mk.sizeOf_spec]
      omega
    simp only [JVal.obj.sizeOf_spec]
    omega

end MergeImmer

namespace MergeImmer

/-- The post-processing step at the end of `mergeObjectImmer`'s final
branch: with `shouldRemoveNestedNulls`, a non-array object value just
written at `key` is cleaned; if the cleanup empties it, the key is
deleted. -/
def postProcess (opts : FMOptions) (draft : List (String × JVal))
    (key : String) : List (String × JVal) :=
  match getF draft key with
  | some w =>
    if opts.shouldRemoveNestedNulls && isObjNonArr w then
      if (fieldsOf (removeNestedNullValuesImmer w)).isEmpty then
        delF draft key
      else setF draft key (removeNestedNullValuesImmer w)
    else draft
  | none => draft

/-- `mergeObjectImmer(draft, source, options)` as a fold over the source's
fields (JS iterates `Object.keys(source)` in insertion order; `undefined`
source properties, which the source skips, cannot occur in the model).  The
branch order follows the source: null removal, replace-marker handling,
mark-on-null, array replacement, primitive/null replacement, and finally
nested-object merge or assignment followed by the null-cleanup
post-processing. -/
def mergeObjectImmer (opts : FMOptions) :
    List (String × JVal) → List (String × JVal) → List (String × JVal)
  | draft, [] => draft
  | draft, (key, sv) :: rest =>
    if opts.shouldRemoveNestedNulls && isNull sv then
      mergeObjectImmer opts (delF draft key) rest
    else if opts.objectRemovalMode == Mode.replace && isObjLike sv &&
        hasMark sv then
      mergeObjectImmer opts (setF draft key (stripMark sv)) rest
    else if opts.objectRemovalMode == Mode.mark && isNullOpt (getF draft key) then
      mergeObjectImmer opts (setF draft key (markSpread sv)) rest
    else if isArr sv then
      mergeObjectImmer opts (setF draft key sv) rest
    else if isNull sv || !isObjLike sv then
      mergeObjectImmer opts (setF draft key sv) rest
    else
      mergeObjectImmer opts (postProcess opts
        (match getF draft key with
          | some (.obj df) =>
            setF draft key (.obj (mergeObjectImmer opts df (fieldsOf sv)))
          | _ => setF draft key sv) key) rest
termination_by draft source => sizeOf source
decreasing_by
  · simp only [Prod.mk.sizeOf_spec, List.cons.sizeOf_spec]
    omega
  · simp only [Prod.mk.sizeOf_spec, List.cons.sizeOf_spec]
    omega
  · simp only [Prod.mk.sizeOf_spec, List.cons.sizeOf_spec]
    omega
  · simp only [Prod.mk.sizeOf_spec, List.cons.sizeOf_spec]
    omega
  · simp only [Prod.mk.sizeOf_spec, List.cons.sizeOf_spec]
    omega
  · -- the nested call on the source field's own fields
    have hle : sizeOf (fieldsOf sv) ≤ sizeOf sv := by
      cases sv <;> simp [fieldsOf] <;> omega
    simp only [Prod.mk.sizeOf_spec, List.cons.sizeOf_spec]
    omega
  · simp only [Prod.mk.sizeOf_spec, List.cons.sizeOf_spec]
    omega

/-- `generateReplaceNullPatches(target, source, basePath, patches)`, returning
the pushed patches in order: a `(path, sourceValue)` patch whenever the
target holds `null` where the source has a (non-null) object, plus the
patches of recursing through non-array object source fields. -/
def generateReplaceNullPatches (tf : List (String × JVal)) :
    List (String × JVal) → List String → List (List String × JVal)
  | [], _ => []
  | (key, sv) :: rest, base =>
    (if isNullOpt (getF tf key) && isObjLike sv then
      [(base ++ [key], sv)]
    else if isObjNonArr sv then
      generateReplaceNullPatches (fieldsLike (getF tf key)) (fieldsOf sv)
        (base ++ [key])
    else []) ++ generateReplaceNullPatches tf rest base
termination_by source base => sizeOf source
decreasing_by
  · have hle : sizeOf (fieldsOf sv) ≤ sizeOf sv := by
      cases sv <;> simp [fieldsOf] <;> omega
    simp only [Prod.mk.sizeOf_spec, List.cons.sizeOf_spec]
    omega
  · simp only [Prod.mk.sizeOf_spec, List.cons.sizeOf_spec]
    omega

/-- `fastMergeImmer(target, source, options)` (options already defaulted):
arrays and nullish sources replace wholesale; a null target in mark mode
yields the marked source and a root patch; an array target is replaced by an
object source; two (non-null, non-array) objects merge field-wise, with the
replace-null patches computed in mark mode; anything else is replaced by the
source. -/
def fastMergeImmer (target source : JVal) (opts : FMOptions) :
    JVal × List (List String × JVal) :=
  if isArr source || isNull source then (source, [])
  else if isNull target && opts.objectRemovalMode == Mode.mark then
    (markSpread source, [([], source)])
  else if isArr target && isObjLike source then (source, [])
  else if isObjLike target && isObjLike source then
    (.obj (mergeObjectImmer opts (fieldsOf target) (fieldsOf source)),
      if opts.objectRemovalMode == Mode.mark then
        generateReplaceNullPatches (fieldsOf target) (fieldsOf source) []
      else [])
  else (source, [])

/-- Path lookup through object fields. -/
def getPath : List String → JVal → Option JVal
  | [], v => some v
  | k :: ks, .obj fs =>
    match List.lookup k fs with
    | some w => getPath ks w
    | none => none
  | _ :: _, _ => none

end MergeImmer

namespace MergeImmer

theorem attach_filterMap {α β : Type} (l : List α) (g : α → Option β) :
    l.attach.filterMap (fun p => g p.1) = l.filterMap g := by
  induction l with
  | nil => rfl
  | cons a t ih =>
    rw [List.attach_cons, List.filterMap_cons, List.filterMap_cons,
      List.filterMap_map]
    dsimp only
    cases hga : g a
    · simp only [hga]
      exact ih
    · simp only [hga]
      exact congrArg (List.cons _) ih

/-- The non-dependent form of the object branch of
`removeNestedNullValuesImmer`. -/
theorem clean_obj_eq (fs : List (String × JVal)) :
    removeNestedNullValuesImmer (.obj fs) =
      .obj (fs.filterMap (fun p =>
        if isNull p.2 then none
        else if isObjNonArr p.2 then
          some (p.1, removeNestedNullValuesImmer p.2)
        else some p)) := by
  rw [removeNestedNullValuesImmer]
  congr 1
  exact attach_filterMap fs (fun q =>
    if isNull q.2 then none
    else if isObjNonArr q.2 then
      some (q.1, removeNestedNullValuesImmer q.2)
    else some q)

theorem wfB_obj_nodup {fs : List (String × JVal)}
    (h : wfB (.obj fs) = true) : (fs.map Prod.fst).Nodup := by
  rw [wfB] at h
  exact of_decide_eq_true ((Bool.and_eq_true _ _).mp h).1

theorem wfB_obj_field {fs : List (String × JVal)} {k : String} {v : JVal}
    (h : wfB (.obj fs) = true) (hm : (k, v) ∈ fs) : wfB v = true := by
  rw [wfB] at h
  have h2 := ((Bool.and_eq_true _ _).mp h).2
  rw [List.all_eq_true] at h2
  exact h2 ⟨(k, v), hm⟩ (List.mem_attach fs ⟨(k, v), hm⟩)

theorem wfB_obj_intro (fs : List (String × JVal))
    (hnd : (fs.map Prod.fst).Nodup) (hall : ∀ p ∈ fs, wfB p.2 = true) :
    wfB (.obj fs) = true := by
  rw [wfB]
  rw [Bool.and_eq_true]
  refine ⟨decide_eq_true hnd, ?_⟩
  rw [List.all_eq_true]
  intro x _
  exact hall x.1 x.2

theorem lookup_append_single_ne {β : Type} (f : List (String × β))
    (k k' : String) (v : β) (h : k' ≠ k) :
    List.lookup k' (f ++ [(k, v)]) = List.lookup k' f := by
  induction f with
  | nil =>
    have hne : (k' == k) = false := by
      simp only [beq_eq_false_iff_ne, ne_eq]
      exact h
    simp [List.lookup, hne]
  | cons p t ih =>
    obtain ⟨a, b⟩ := p
    cases he : (k' == a) with
    | true => simp only [List.cons_append, List.lookup, he]
    | false =>
      simp only [List.cons_append, List.lookup, he]
      exact ih

theorem lookup_map_replace_ne (f : List (String × JVal)) (k k' : String)
    (v : JVal) (h : k' ≠ k) :
    List.lookup k' (f.map (fun p => if p.1 = k then (k, v) else p)) =
      List.lookup k' f := by
  induction f with
  | nil => rfl
  | cons p t ih =>
    obtain ⟨a, b⟩ := p
    by_cases hak : a = k
    · subst hak
      have hif : ((a, b).1 = a) := rfl
      rw [List.map_cons, if_pos hif]
      have hne : (k' == a) = false := by
        simp only [beq_eq_false_iff_ne, ne_eq]
        exact h
      simp only [List.lookup, hne]
      exact ih
    · have hif : ¬ ((a, b).1 = k) := hak
      rw [List.map_cons, if_neg hif]
      cases he : (k' == a) with
      | true => simp only [List.lookup, he]
      | false =>
        simp only [List.lookup, he]
        exact ih

theorem getF_setF_self (f : List (String × JVal)) (k : String) (v : JVal) :
    getF (setF f k v) k = some v := by
  unfold getF setF
  by_cases hp : (List.lookup k f).isSome
  · rw [if_pos hp]
    induction f with
    | nil => simp [List.lookup] at hp
    | cons p t ih =>
      obtain ⟨a, b⟩ := p
      by_cases hka : a = k
      · subst hka
        have hif : ((a, b).1 = a) := rfl
        rw [List.map_cons, if_pos hif]
        simp [List.lookup]
      · have hif : ¬ ((a, b).1 = k) := hka
        have hne : (k == a) = false := by
          simp only [beq_eq_false_iff_ne, ne_eq]
          exact fun he => hka he.symm
        rw [List.map_cons, if_neg hif]
        simp only [List.lookup, hne] at hp ⊢
        exact ih hp
  · rw [if_neg hp]
    have hnone : List.lookup k f = none := by
      cases hl : List.lookup k f
      · rfl
      · rw [hl] at hp
        simp at hp
    rw [ConnMgr.lookup_append_of_none f _ k hnone]
    simp [List.lookup]

theorem getF_setF_ne (f : List (String × JVal)) (k k' : String) (v : JVal)
    (h : k' ≠ k) : getF (setF f k v) k' = getF f k' := by
  unfold getF setF
  by_cases hp : (List.lookup k f).isSome
  · rw [if_pos hp]
    exact lookup_map_replace_ne f k k' v h
  · rw [if_neg hp]
    exact lookup_append_single_ne f k k' v h

theorem getF_delF_ne (f : List (String × JVal)) (k k' : String)
    (h : k' ≠ k) : getF (delF f k) k' = getF f k' := by
  unfold getF delF
  induction f with
  | nil => rfl
  | cons p t ih =>
    obtain ⟨a, b⟩ := p
    by_cases hak : a = k
    · subst hak
      have hcond : (decide (((a, b)).1 ≠ a) : Bool) = false := by simp
      rw [List.filter_cons, hcond]
      have hne : (k' == a) = false := by
        simp only [beq_eq_false_iff_ne, ne_eq]
        exact h
      simp only [List.lookup, hne]
      exact ih
    · have hcond : (decide (((a, b)).1 ≠ k) : Bool) = true := by
        simp only [decide_eq_true_eq, ne_eq]
        exact hak
      rw [List.filter_cons, hcond]
      cases he : (k' == a) with
      | true => simp only [List.lookup, he]
      | false =>
        simp only [List.lookup, he]
        exact ih

theorem getF_postProcess_ne (opts : FMOptions) (d : List (String × JVal))
    (key k' : String) (h : k' ≠ key) :
    getF (postProcess opts d key) k' = getF d k' := by
  unfold postProcess
  cases getF d key with
  | none => rfl
  | some w =>
    dsimp only
    by_cases h1 : (opts.shouldRemoveNestedNulls && isObjNonArr w) = true
    · rw [if_pos h1]
      by_cases h2 : (fieldsOf (removeNestedNullValuesImmer w)).isEmpty
      · rw [if_pos h2]
        exact getF_delF_ne d key k' h
      · rw [if_neg h2]
        exact getF_setF_ne d key k' _ h
    · rw [if_neg h1]

end MergeImmer

namespace MergeImmer

/-- The draft transformation performed by one iteration of
`mergeObjectImmer`'s `forEach` body (naming the branch results of the
recursive definition; not itself part of the source). -/
def mergeStep (opts : FMOptions) (draft : List (String × JVal))
    (key : String) (sv : JVal) : List (String × JVal) :=
  if opts.shouldRemoveNestedNulls && isNull sv then
    delF draft key
  else if opts.objectRemovalMode == Mode.replace && isObjLike sv &&
      hasMark sv then
    setF draft key (stripMark sv)
  else if opts.objectRemovalMode == Mode.mark && isNullOpt (getF draft key) then
    setF draft key (markSpread sv)
  else if isArr sv then
    setF draft key sv
  else if isNull sv || !isObjLike sv then
    setF draft key sv
  else
    postProcess opts
      (match getF draft key with
        | some (.obj df) =>
          setF draft key (.obj (mergeObjectImmer opts df (fieldsOf sv)))
        | _ => setF draft key sv) key

theorem merge_cons (opts : FMOptions) (draft : List (String × JVal))
    (key : String) (sv : JVal) (rest : List (String × JVal)) :
    mergeObjectImmer opts draft ((key, sv) :: rest) =
      mergeObjectImmer opts (mergeStep opts draft key sv) rest := by
  rw [mergeObjectImmer]
  unfold mergeStep
  by_cases h1 : (opts.shouldRemoveNestedNulls && isNull sv) = true
  · rw [if_pos h1, if_pos h1]
  · rw [if_neg h1, if_neg h1]
    by_cases h2 : (opts.objectRemovalMode == Mode.replace && isObjLike sv &&
        hasMark sv) = true
    · rw [if_pos h2, if_pos h2]
    · rw [if_neg h2, if_neg h2]
      by_cases h3 : (opts.objectRemovalMode == Mode.mark &&
          isNullOpt (getF draft key)) = true
      · rw [if_pos h3, if_pos h3]
      · rw [if_neg h3, if_neg h3]
        by_cases h4 : isArr sv = true
        · rw [if_pos h4, if_pos h4]
        · rw [if_neg h4, if_neg h4]
          by_cases h5 : (isNull sv || !isObjLike sv) = true
          · rw [if_pos h5, if_pos h5]
          · rw [if_neg h5, if_neg h5]

theorem merge_nil (opts : FMOptions) (draft : List (String × JVal)) :
    mergeObjectImmer opts draft [] = draft := by
  rw [mergeObjectImmer]

theorem merge_append (opts : FMOptions) (s1 s2 draft : List (String × JVal)) :
    mergeObjectImmer opts draft (s1 ++ s2) =
      mergeObjectImmer opts (mergeObjectImmer opts draft s1) s2 := by
  induction s1 generalizing draft with
  | nil =>
    rw [List.nil_append, merge_nil]
  | cons x s1' ih =>
    obtain ⟨key, sv⟩ := x
    rw [List.cons_append, merge_cons, merge_cons]
    exact ih _

theorem mergeStep_getF_ne (opts : FMOptions) (draft : List (String × JVal))
    (key : String) (sv : JVal) (k' : String) (h : k' ≠ key) :
    getF (mergeStep opts draft key sv) k' = getF draft k' := by
  unfold mergeStep
  by_cases h1 : (opts.shouldRemoveNestedNulls && isNull sv) = true
  · rw [if_pos h1]
    exact getF_delF_ne draft key k' h
  · rw [if_neg h1]
    by_cases h2 : (opts.objectRemovalMode == Mode.replace && isObjLike sv &&
        hasMark sv) = true
    · rw [if_pos h2]
      exact getF_setF_ne draft key k' _ h
    · rw [if_neg h2]
      by_cases h3 : (opts.objectRemovalMode == Mode.mark &&
          isNullOpt (getF draft key)) = true
      · rw [if_pos h3]
        exact getF_setF_ne draft key k' _ h
      · rw [if_neg h3]
        by_cases h4 : isArr sv = true
        · rw [if_pos h4]
          exact getF_setF_ne draft key k' _ h
        · rw [if_neg h4]
          by_cases h5 : (isNull sv || !isObjLike sv) = true
          · rw [if_pos h5]
            exact getF_setF_ne draft key k' _ h
          · rw [if_neg h5]
            rw [getF_postProcess_ne _ _ key k' h]
            cases hg : getF draft key with
            | none =>
              dsimp only
              exact getF_setF_ne draft key k' _ h
            | some w =>
              cases w with
              | obj df =>
                dsimp only
                exact getF_setF_ne draft key k' _ h
              | null =>
                dsimp only
                exact getF_setF_ne draft key k' _ h
              | prim t i =>
                dsimp only
                exact getF_setF_ne draft key k' _ h
              | arr xs =>
                dsimp only
                exact getF_setF_ne draft key k' _ h

theorem merge_getF_notmem (opts : FMOptions) (source : List (String × JVal)) :
    ∀ (draft : List (String × JVal)) (k' : String),
      k' ∉ source.map Prod.fst →
      getF (mergeObjectImmer opts draft source) k' = getF draft k' := by
  induction source with
  | nil =>
    intro draft k' _
    rw [merge_nil]
  | cons x rest ih =>
    intro draft k' hk
    obtain ⟨key, sv⟩ := x
    simp only [List.map_cons, List.mem_cons] at hk
    push_neg at hk
    rw [merge_cons, ih _ _ hk.2]
    exact mergeStep_getF_ne opts draft key sv k' hk.1

theorem lookup_decomp {β : Type} (sf : List (String × β)) (k : String)
    (sv : β) (hnd : (sf.map Prod.fst).Nodup)
    (hl : List.lookup k sf = some sv) :
    ∃ pre post, sf = pre ++ (k, sv) :: post ∧
      k ∉ pre.map Prod.fst ∧ k ∉ post.map Prod.fst := by
  induction sf with
  | nil => simp [List.lookup] at hl
  | cons p t ih =>
    obtain ⟨a, b⟩ := p
    simp only [List.map_cons, List.nodup_cons] at hnd
    by_cases hka : (k == a) = true
    · have hk : k = a := eq_of_beq hka
      simp only [List.lookup, hka] at hl
      injection hl with hv
      subst hk
      subst hv
      refine ⟨[], t, rfl, by simp, ?_⟩
      exact hnd.1
    · rw [Bool.not_eq_true] at hka
      simp only [List.lookup, hka] at hl
      obtain ⟨pre, post, heq, hpre, hpost⟩ := ih hnd.2 hl
      refine ⟨(a, b) :: pre, post, by rw [heq, List.cons_append], ?_, hpost⟩
      simp only [List.map_cons, List.mem_cons]
      push_neg
      refine ⟨?_, hpre⟩
      intro he
      rw [he] at hka
      simp at hka

end MergeImmer

namespace MergeImmer

theorem getPath_cons_obj (k : String) (p : List String)
    (fs : List (String × JVal)) :
    getPath (k :: p) (.obj fs) =
      (match List.lookup k fs with
        | some w => getPath p w
        | none => none) := rfl

theorem getPath_nil (v : JVal) : getPath [] v = some v := rfl

theorem getPath_cons_inv {k : String} {p : List String} {v : JVal} {r : JVal}
    (h : getPath (k :: p) v = some r) :
    ∃ fs w, v = .obj fs ∧ List.lookup k fs = some w ∧ getPath p w = some r := by
  cases v with
  | obj fs =>
    rw [getPath_cons_obj] at h
    cases hl : List.lookup k fs with
    | none =>
      rw [hl] at h
      simp at h
    | some w =>
      rw [hl] at h
      exact ⟨fs, w, rfl, hl, h⟩
  | null => simp [getPath] at h
  | prim t i => simp [getPath] at h
  | arr xs => simp [getPath] at h

/-- The object branch of `removeNestedNullValuesImmer`, named. -/
def cleanFields (fs : List (String × JVal)) : List (String × JVal) :=
  fs.filterMap (fun p =>
    if isNull p.2 then none
    else if isObjNonArr p.2 then
      some (p.1, removeNestedNullValuesImmer p.2)
    else some p)

theorem clean_obj_eq' (fs : List (String × JVal)) :
    removeNestedNullValuesImmer (.obj fs) = .obj (cleanFields fs) :=
  clean_obj_eq fs

theorem lookup_cleanFields (fs : List (String × JVal)) (k : String) (w : JVal)
    (hl : List.lookup k fs = some w) (hnn : isNull w = false) :
    List.lookup k (cleanFields fs) =
      some (if isObjNonArr w then removeNestedNullValuesImmer w else w) := by
  induction fs with
  | nil => simp [List.lookup] at hl
  | cons p t ih =>
    obtain ⟨a, b⟩ := p
    unfold cleanFields
    rw [List.filterMap_cons]
    by_cases hka : (k == a) = true
    · have hk : k = a := eq_of_beq hka
      subst hk
      simp only [List.lookup, beq_self_eq_true] at hl
      injection hl with hb
      subst hb
      by_cases ho : isObjNonArr b = true
      · simp [hnn, ho, List.lookup]
      · simp only [Bool.not_eq_true] at ho
        simp [hnn, ho, List.lookup]
    · rw [Bool.not_eq_true] at hka
      simp only [List.lookup, hka] at hl
      by_cases hb : isNull b = true
      · simp only [hb, if_true]
        exact ih hl
      · simp only [Bool.not_eq_true] at hb
        by_cases ho : isObjNonArr b = true
        · simp only [hb, Bool.false_eq_true, if_false, ho, if_true,
            List.lookup, hka]
          exact ih hl
        · simp only [Bool.not_eq_true] at ho
          simp only [hb, ho, Bool.false_eq_true, if_false, List.lookup, hka]
          exact ih hl

theorem lookup_cleanFields_objval (fs : List (String × JVal)) (k : String)
    (wf : List (String × JVal)) (hl : List.lookup k fs = some (.obj wf)) :
    List.lookup k (cleanFields fs) =
      some (removeNestedNullValuesImmer (.obj wf)) := by
  have h := lookup_cleanFields fs k (.obj wf) hl rfl
  simpa [isObjNonArr] using h

theorem clean_path :
    ∀ (p : List String) (v : JVal) (m' : List (String × JVal)),
      getPath p v = some (.obj m') → List.lookup MARK m' = some jtrue →
      ∃ m'', getPath p (removeNestedNullValuesImmer v) = some (.obj m'') ∧
        List.lookup MARK m'' = some jtrue := by
  intro p
  induction p with
  | nil =>
    intro v m' hp hm
    rw [getPath_nil] at hp
    injection hp with hv
    subst hv
    rw [clean_obj_eq']
    refine ⟨cleanFields m', getPath_nil _, ?_⟩
    have h := lookup_cleanFields m' MARK jtrue hm rfl
    simpa [isObjNonArr, jtrue] using h
  | cons q p'' ih =>
    intro v m' hp hm
    obtain ⟨fs, w, hv, hlw, hpw⟩ := getPath_cons_inv hp
    subst hv
    obtain ⟨wf, hw⟩ : ∃ wf, w = .obj wf := by
      cases p'' with
      | nil =>
        rw [getPath_nil] at hpw
        injection hpw with hw
        exact ⟨m', hw⟩
      | cons q2 p3 =>
        obtain ⟨fs2, w2, hv2, _, _⟩ := getPath_cons_inv hpw
        exact ⟨fs2, hv2⟩
    subst hw
    obtain ⟨m'', hm''p, hm''⟩ := ih (.obj wf) m' hpw hm
    rw [clean_obj_eq']
    have hlw' := lookup_cleanFields_objval fs q wf hlw
    refine ⟨m'', ?_, hm''⟩
    rw [getPath_cons_obj, hlw']
    exact hm''p

end MergeImmer


namespace MergeImmer

theorem getF_eq (f : List (String × JVal)) (k : String) :
    getF f k = List.lookup k f := rfl

theorem mergeStep_marks_null (opts : FMOptions)
    (hmode : opts.objectRemovalMode = Mode.mark)
    (D : List (String × JVal)) (k : String) (f : List (String × JVal))
    (hD : getF D k = some .null) :
    mergeStep opts D k (.obj f) = setF D k (.obj (setF f MARK jtrue)) := by
  unfold mergeStep
  have hneg1 : ¬ ((opts.shouldRemoveNestedNulls && isNull (JVal.obj f)) = true) := by
    simp [isNull]
  have hneg2 : ¬ ((opts.objectRemovalMode == Mode.replace &&
      isObjLike (JVal.obj f) && hasMark (JVal.obj f)) = true) := by
    simp [hmode, show (Mode.mark == Mode.replace) = false from rfl]
  have hpos3 : (opts.objectRemovalMode == Mode.mark &&
      isNullOpt (getF D k)) = true := by
    rw [hmode, hD]
    rfl
  rw [if_neg hneg1, if_neg hneg2, if_pos hpos3]
  rfl

theorem mergeStep_nested (opts : FMOptions)
    (hmode : opts.objectRemovalMode = Mode.mark)
    (D : List (String × JVal)) (k : String)
    (tf' sf' : List (String × JVal))
    (hD : getF D k = some (.obj tf')) :
    mergeStep opts D k (.obj sf') =
      postProcess opts
        (setF D k (.obj (mergeObjectImmer opts tf' sf'))) k := by
  unfold mergeStep
  have hneg1 : ¬ ((opts.shouldRemoveNestedNulls && isNull (JVal.obj sf')) = true) := by
    simp [isNull]
  have hneg2 : ¬ ((opts.objectRemovalMode == Mode.replace &&
      isObjLike (JVal.obj sf') && hasMark (JVal.obj sf')) = true) := by
    simp [hmode, show (Mode.mark == Mode.replace) = false from rfl]
  have hneg3 : ¬ ((opts.objectRemovalMode == Mode.mark &&
      isNullOpt (getF D k)) = true) := by
    rw [hD]
    simp [isNullOpt]
  have hneg4 : ¬ (isArr (JVal.obj sf') = true) := by
    simp [isArr]
  have hneg5 : ¬ ((isNull (JVal.obj sf') || !isObjLike (JVal.obj sf')) = true) := by
    simp [isNull, isObjLike]
  rw [if_neg hneg1, if_neg hneg2, if_neg hneg3, if_neg hneg4, if_neg hneg5, hD]
  rfl

/-- In mark mode, merging an object whose value along a path is `null` with
an object introducing an object at that path leaves the replace marker on
the merged result's subtree at that path. -/
theorem merge_mark_path (opts : FMOptions)
    (hmode : opts.objectRemovalMode = Mode.mark) :
    ∀ (p : List String) (k : String) (tf sf m : List (String × JVal)),
      wfB (.obj tf) = true → wfB (.obj sf) = true →
      getPath (k :: p) (.obj tf) = some .null →
      getPath (k :: p) (.obj sf) = some (.obj m) →
      ∃ m', getPath (k :: p) (.obj (mergeObjectImmer opts tf sf)) =
          some (.obj m') ∧ List.lookup MARK m' = some jtrue := by
  intro p
  induction p with
  | nil =>
    intro k tf sf m hwt hws htp hsp
    obtain ⟨tf0, tv, htf0, hltv, htv⟩ := getPath_cons_inv htp
    injection htf0 with htf0'
    subst htf0'
    obtain ⟨sf0, sv, hsf0, hlsv, hsv⟩ := getPath_cons_inv hsp
    injection hsf0 with hsf0'
    subst hsf0'
    rw [getPath_nil] at htv hsv
    injection htv with htv'
    subst htv'
    injection hsv with hsv'
    subst hsv'
    have hnds := wfB_obj_nodup hws
    obtain ⟨pre, post, hsfeq, hpre, hpost⟩ := lookup_decomp sf k _ hnds hlsv
    rw [hsfeq, merge_append, merge_cons]
    have hDk : getF (mergeObjectImmer opts tf pre) k = some .null := by
      rw [merge_getF_notmem opts pre tf k hpre, getF_eq]
      exact hltv
    rw [mergeStep_marks_null opts hmode _ k m hDk]
    have hfin : getF (mergeObjectImmer opts
        (setF (mergeObjectImmer opts tf pre) k (.obj (setF m MARK jtrue)))
        post) k = some (.obj (setF m MARK jtrue)) := by
      rw [merge_getF_notmem opts post _ k hpost]
      exact getF_setF_self _ k _
    refine ⟨setF m MARK jtrue, ?_, ?_⟩
    · rw [getPath_cons_obj]
      rw [getF_eq] at hfin
      rw [hfin]
      rfl
    · have hm := getF_setF_self m MARK jtrue
      rw [getF_eq] at hm
      exact hm
  | cons k2 p' ih =>
    intro k tf sf m hwt hws htp hsp
    obtain ⟨tf0, tv, htf0, hltv, htv⟩ := getPath_cons_inv htp
    injection htf0 with htf0'
    subst htf0'
    obtain ⟨sf0, sv, hsf0, hlsv, hsv⟩ := getPath_cons_inv hsp
    injection hsf0 with hsf0'
    subst hsf0'
    obtain ⟨tf', htv'⟩ : ∃ tf', tv = JVal.obj tf' := by
      obtain ⟨fs2, w2, hv2, _, _⟩ := getPath_cons_inv htv
      exact ⟨fs2, hv2⟩
    subst htv'
    obtain ⟨sf', hsv'⟩ : ∃ sf', sv = JVal.obj sf' := by
      obtain ⟨fs2, w2, hv2, _, _⟩ := getPath_cons_inv hsv
      exact ⟨fs2, hv2⟩
    subst hsv'
    have hwt' : wfB (.obj tf') = true :=
      wfB_obj_field hwt (ConnMgr.lookup_mem hltv)
    have hws' : wfB (.obj sf') = true :=
      wfB_obj_field hws (ConnMgr.lookup_mem hlsv)
    have hnds := wfB_obj_nodup hws
    obtain ⟨pre, post, hsfeq, hpre, hpost⟩ := lookup_decomp sf k _ hnds hlsv
    rw [hsfeq, merge_append, merge_cons]
    have hDk : getF (mergeObjectImmer opts tf pre) k = some (.obj tf') := by
      rw [merge_getF_notmem opts pre tf k hpre, getF_eq]
      exact hltv
    rw [mergeStep_nested opts hmode _ k tf' sf' hDk]
    obtain ⟨mI, hImp, hIm⟩ := ih k2 tf' sf' m hwt' hws' htv hsv
    have hfe : fieldsOf (removeNestedNullValuesImmer
        (.obj (mergeObjectImmer opts tf' sf'))) =
        cleanFields (mergeObjectImmer opts tf' sf') := by
      rw [clean_obj_eq']
      rfl
    have hpp : ∃ mR m', getF (postProcess opts
        (setF (mergeObjectImmer opts tf pre) k
          (.obj (mergeObjectImmer opts tf' sf'))) k) k = some (.obj mR) ∧
        getPath (k2 :: p') (.obj mR) = some (.obj m') ∧
        List.lookup MARK m' = some jtrue := by
      have hset := getF_setF_self (mergeObjectImmer opts tf pre) k
        (.obj (mergeObjectImmer opts tf' sf'))
      unfold postProcess
      rw [hset]
      dsimp only
      by_cases hrm : opts.shouldRemoveNestedNulls = true
      · have hcond : (opts.shouldRemoveNestedNulls &&
            isObjNonArr (.obj (mergeObjectImmer opts tf' sf'))) = true := by
          rw [hrm]
          rfl
        rw [if_pos hcond]
        obtain ⟨mC, hCp, hCm⟩ := clean_path (k2 :: p')
          (.obj (mergeObjectImmer opts tf' sf')) mI hImp hIm
        rw [clean_obj_eq'] at hCp
        by_cases hemp : (fieldsOf (removeNestedNullValuesImmer
            (.obj (mergeObjectImmer opts tf' sf')))).isEmpty = true
        · exfalso
          rw [hfe] at hemp
          cases hcf : cleanFields (mergeObjectImmer opts tf' sf') with
          | nil =>
            rw [hcf, getPath_cons_obj] at hCp
            simp [List.lookup] at hCp
          | cons q t =>
            rw [hcf] at hemp
            simp [List.isEmpty] at hemp
        · rw [if_neg hemp]
          refine ⟨cleanFields (mergeObjectImmer opts tf' sf'), mC, ?_, hCp, hCm⟩
          rw [clean_obj_eq']
          exact getF_setF_self _ k _
      · have hcond : ¬ ((opts.shouldRemoveNestedNulls &&
            isObjNonArr (.obj (mergeObjectImmer opts tf' sf'))) = true) := by
          rw [Bool.not_eq_true] at hrm
          rw [hrm]
          simp
        rw [if_neg hcond]
        exact ⟨mergeObjectImmer opts tf' sf', mI, hset, hImp, hIm⟩
    obtain ⟨mR, m', hR, hRp, hRm⟩ := hpp
    refine ⟨m', ?_, hRm⟩
    rw [getPath_cons_obj]
    have hfin : getF (mergeObjectImmer opts (postProcess opts
        (setF (mergeObjectImmer opts tf pre) k
          (.obj (mergeObjectImmer opts tf' sf'))) k) post) k = some (.obj mR) := by
      rw [merge_getF_notmem opts post _ k hpost]
      exact hR
    rw [getF_eq] at hfin
    rw [hfin]
    dsimp only
    exact hRp

end MergeImmer

namespace MergeImmer

/-- The patches contributed by one source entry in
`generateReplaceNullPatches` (a name for the per-entry chunk of the
source's loop body; not itself part of the source). -/
def patchChunk (tf : List (String × JVal)) (k : String) (sv : JVal)
    (base : List String) : List (List String × JVal) :=
  if isNullOpt (getF tf k) && isObjLike sv then [(base ++ [k], sv)]
  else if isObjNonArr sv then
    generateReplaceNullPatches (fieldsLike (getF tf k)) (fieldsOf sv)
      (base ++ [k])
  else []

theorem genPatches_cons (tf : List (String × JVal)) (k : String) (sv : JVal)
    (rest : List (String × JVal)) (base : List String) :
    generateReplaceNullPatches tf ((k, sv) :: rest) base =
      patchChunk tf k sv base ++ generateReplaceNullPatches tf rest base := by
  rw [generateReplaceNullPatches]
  rfl

theorem genPatches_mem (tf : List (String × JVal)) (k : String) (sv : JVal)
    (base : List String) :
    ∀ (sf : List (String × JVal)), List.lookup k sf = some sv →
      ∀ x ∈ patchChunk tf k sv base,
        x ∈ generateReplaceNullPatches tf sf base := by
  intro sf
  induction sf with
  | nil =>
    intro hl
    simp [List.lookup] at hl
  | cons a rest ih =>
    obtain ⟨ak, av⟩ := a
    intro hl x hx
    rw [genPatches_cons]
    by_cases hk : (k == ak) = true
    · have hke : k = ak := eq_of_beq hk
      subst hke
      have hav : av = sv := by
        simp [List.lookup, hk] at hl
        exact hl
      subst hav
      exact List.mem_append_left _ hx
    · have hl' : List.lookup k rest = some sv := by
        simp only [List.lookup] at hl
        rw [Bool.not_eq_true] at hk
        rw [hk] at hl
        exact hl
      exact List.mem_append_right _ (ih hl' x hx)

/-- In mark mode, for a path along which the target holds `null` and the
source introduces an object, `generateReplaceNullPatches` records a patch at
that path carrying the source's object. -/
theorem patches_mark_path :
    ∀ (p : List String) (k : String) (tf sf m : List (String × JVal))
      (base : List String),
      getPath (k :: p) (.obj tf) = some .null →
      getPath (k :: p) (.obj sf) = some (.obj m) →
      (base ++ (k :: p), JVal.obj m) ∈
        generateReplaceNullPatches tf sf base := by
  intro p
  induction p with
  | nil =>
    intro k tf sf m base htp hsp
    obtain ⟨tf0, tv, htf0, hltv, htv⟩ := getPath_cons_inv htp
    injection htf0 with htf0'
    subst htf0'
    obtain ⟨sf0, sv, hsf0, hlsv, hsv⟩ := getPath_cons_inv hsp
    injection hsf0 with hsf0'
    subst hsf0'
    rw [getPath_nil] at htv hsv
    injection htv with htv'
    subst htv'
    injection hsv with hsv'
    subst hsv'
    have hchunk : (base ++ [k], JVal.obj m) ∈ patchChunk tf k (.obj m) base := by
      unfold patchChunk
      have hcond : (isNullOpt (getF tf k) && isObjLike (JVal.obj m)) = true := by
        rw [getF_eq, hltv]
        rfl
      rw [if_pos hcond]
      exact List.mem_singleton_self _
    exact genPatches_mem tf k (.obj m) base sf hlsv _ hchunk
  | cons k2 p' ih =>
    intro k tf sf m base htp hsp
    obtain ⟨tf0, tv, htf0, hltv, htv⟩ := getPath_cons_inv htp
    injection htf0 with htf0'
    subst htf0'
    obtain ⟨sf0, sv, hsf0, hlsv, hsv⟩ := getPath_cons_inv hsp
    injection hsf0 with hsf0'
    subst hsf0'
    obtain ⟨tf', htv'⟩ : ∃ tf', tv = JVal.obj tf' := by
      obtain ⟨fs2, w2, hv2, _, _⟩ := getPath_cons_inv htv
      exact ⟨fs2, hv2⟩
    subst htv'
    obtain ⟨sf', hsv'⟩ : ∃ sf', sv = JVal.obj sf' := by
      obtain ⟨fs2, w2, hv2, _, _⟩ := getPath_cons_inv hsv
      exact ⟨fs2, hv2⟩
    subst hsv'
    have hchunk : (base ++ (k :: k2 :: p'), JVal.obj m) ∈
        patchChunk tf k (.obj sf') base := by
      unfold patchChunk
      have hcond1 : ¬ ((isNullOpt (getF tf k) &&
          isObjLike (JVal.obj sf')) = true) := by
        rw [getF_eq, hltv]
        simp [isNullOpt]
      have hcond2 : isObjNonArr (JVal.obj sf') = true := rfl
      rw [if_neg hcond1, if_pos hcond2]
      have hfl : fieldsLike (getF tf k) = tf' := by
        rw [getF_eq, hltv]
        rfl
      rw [hfl]
      have hrec := ih k2 tf' sf' m (base ++ [k]) htv hsv
      have happ : base ++ (k :: k2 :: p') = (base ++ [k]) ++ (k2 :: p') := by
        rw [List.append_assoc]
        rfl
      rw [happ]
      exact hrec
    exact genPatches_mem tf k (.obj sf') base sf hlsv _ hchunk

end MergeImmer

namespace MergeImmer

/-- C8: In mark mode, for every target, source and path where the target's
existing value at that path is literally `null` and the source introduces an
object there, `fastMergeImmer`'s result carries the transient replace marker
on that subtree and its replace-null patches list records the corresponding
`(path, sourceObject)` entry. -/
theorem C8_mark_replaces_null (target source : JVal) (p : List String)
    (m : List (String × JVal)) (opts : FMOptions)
    (hmode : opts.objectRemovalMode = Mode.mark)
    (hwt : wfB target = true) (hws : wfB source = true)
    (htp : getPath p target = some .null)
    (hsp : getPath p source = some (.obj m)) :
    (p, JVal.obj m) ∈ (fastMergeImmer target source opts).2 ∧
    ∃ m', getPath p (fastMergeImmer target source opts).1 = some (.obj m') ∧
      List.lookup MARK m' = some jtrue := by
  cases p with
  | nil =>
    rw [getPath_nil] at htp hsp
    injection htp with htp'
    subst htp'
    injection hsp with hsp'
    subst hsp'
    unfold fastMergeImmer
    have h1 : ¬ ((isArr (JVal.obj m) || isNull (JVal.obj m)) = true) := by
      simp [isArr, isNull]
    have h2 : (isNull JVal.null &&
        opts.objectRemovalMode == Mode.mark) = true := by
      rw [hmode]
      rfl
    rw [if_neg h1, if_pos h2]
    refine ⟨List.mem_singleton_self _, setF m MARK jtrue, ?_, ?_⟩
    · rw [getPath_nil]
      rfl
    · have hm := getF_setF_self m MARK jtrue
      rw [getF_eq] at hm
      exact hm
  | cons k p' =>
    obtain ⟨tf, tv, htf, hltv, htv⟩ := getPath_cons_inv htp
    subst htf
    obtain ⟨sf, sv, hsf, hlsv, hsv⟩ := getPath_cons_inv hsp
    subst hsf
    unfold fastMergeImmer
    have h1 : ¬ ((isArr (JVal.obj sf) || isNull (JVal.obj sf)) = true) := by
      simp [isArr, isNull]
    have h2 : ¬ ((isNull (JVal.obj tf) &&
        opts.objectRemovalMode == Mode.mark) = true) := by
      simp [isNull]
    have h3 : ¬ ((isArr (JVal.obj tf) && isObjLike (JVal.obj sf)) = true) := by
      simp [isArr]
    have h4 : (isObjLike (JVal.obj tf) && isObjLike (JVal.obj sf)) = true := rfl
    have h5 : (opts.objectRemovalMode == Mode.mark) = true := by
      rw [hmode]
      rfl
    rw [if_neg h1, if_neg h2, if_neg h3, if_pos h4, if_pos h5]
    constructor
    · have hpat := patches_mark_path p' k tf sf m [] htp hsp
      rw [List.nil_append] at hpat
      exact hpat
    · exact merge_mark_path opts hmode p' k tf sf m hwt hws htp hsp

end MergeImmer

namespace MergeImmer

/-- C8 counterexample: with the target's value at the path ABSENT (not
`null`) — target `{}`, source `{a: {}}`, mark mode — the merge writes the
source object plainly: the patches list is empty (no `(["a"], …)` entry) and
the resulting subtree at `"a"` is `{}` with no replace marker. -/
theorem C8_counterexample :
    getPath ["a"] (JVal.obj []) = none ∧
    (fastMergeImmer (JVal.obj []) (JVal.obj [("a", JVal.obj [])])
        ⟨false, Mode.mark⟩).2 = [] ∧
    (fastMergeImmer (JVal.obj []) (JVal.obj [("a", JVal.obj [])])
        ⟨false, Mode.mark⟩).1 = JVal.obj [("a", JVal.obj [])] ∧
    List.lookup MARK ([] : List (String × JVal)) = none := by
  refine ⟨rfl, ?_, ?_, rfl⟩
  · simp [fastMergeImmer, mergeObjectImmer, generateReplaceNullPatches, isArr,
      isNull, isObjLike, isObjNonArr, isNullOpt, getF, setF, fieldsOf,
      fieldsLike, markSpread, spreadFields, hasMark, postProcess, delF,
      removeNestedNullValuesImmer, List.lookup, jtrue, MARK, beq_iff_eq]
  · simp [fastMergeImmer, mergeObjectImmer, generateReplaceNullPatches, isArr,
      isNull, isObjLike, isObjNonArr, isNullOpt, getF, setF, fieldsOf,
      fieldsLike, markSpread, spreadFields, hasMark, postProcess, delF,
      removeNestedNullValuesImmer, List.lookup, jtrue, MARK, beq_iff_eq]

end MergeImmer

namespace MergeImmer

/-- Concrete instance of C8: target `{a: null}`, source `{a: {b: true}}`,
mark mode — the merge marks the subtree at `"a"` and records the patch. -/
theorem C8_witness :
    (⟨false, Mode.mark⟩ : FMOptions).objectRemovalMode = Mode.mark ∧
    wfB (JVal.obj [("a", JVal.null)]) = true ∧
    wfB (JVal.obj [("a", JVal.obj [("b", jtrue)])]) = true ∧
    getPath ["a"] (JVal.obj [("a", JVal.null)]) = some JVal.null ∧
    getPath ["a"] (JVal.obj [("a", JVal.obj [("b", jtrue)])]) =
      some (JVal.obj [("b", jtrue)]) ∧
    ((["a"], JVal.obj [("b", jtrue)]) ∈
        (fastMergeImmer (JVal.obj [("a", JVal.null)])
          (JVal.obj [("a", JVal.obj [("b", jtrue)])]) ⟨false, Mode.mark⟩).2 ∧
      ∃ m', getPath ["a"] (fastMergeImmer (JVal.obj [("a", JVal.null)])
          (JVal.obj [("a", JVal.obj [("b", jtrue)])]) ⟨false, Mode.mark⟩).1 =
          some (JVal.obj m') ∧ List.lookup MARK m' = some jtrue) := by
  have hnull : wfB JVal.null = true := by rw [wfB]
  have hprim : wfB (JVal.prim true 1) = true := by rw [wfB]
  have hwt : wfB (JVal.obj [("a", JVal.null)]) = true := by
    refine wfB_obj_intro _ (by decide) ?_
    intro q hq
    rw [List.mem_singleton.mp hq]
    exact hnull
  have hinner : wfB (JVal.obj [("b", jtrue)]) = true := by
    refine wfB_obj_intro _ (by decide) ?_
    intro r hr
    rw [List.mem_singleton.mp hr]
    exact hprim
  have hws : wfB (JVal.obj [("a", JVal.obj [("b", jtrue)])]) = true := by
    refine wfB_obj_intro _ (by decide) ?_
    intro q hq
    rw [List.mem_singleton.mp hq]
    exact hinner
  have htp : getPath ["a"] (JVal.obj [("a", JVal.null)]) = some JVal.null := by
    simp [getPath, List.lookup]
  have hsp : getPath ["a"] (JVal.obj [("a", JVal.obj [("b", jtrue)])]) =
      some (JVal.obj [("b", jtrue)]) := by
    simp [getPath, List.lookup]
  exact ⟨rfl, hwt, hws, htp, hsp,
    C8_mark_replaces_null _ _ _ _ _ rfl hwt hws htp hsp⟩

end MergeImmer
